import Mathlib

/-!
# Tetris (SFML) game-state engine: embedding of `Tetris/main.cpp`

The core of `class TetrisGame` is embedded as pure functions over an explicit
state.  Conventions:

* C++ `int` values are `Int`.  Signed overflow is undefined in C++ and is not
  modelled: coordinates and colours are unbounded integers.
* `std::array` objects are lists (`grid`) or a record of four points
  (`blocks`).  Every indexing `a[i]` with a run-time index is a *checked*
  access returning `Option`; `none` stands for an out-of-range index, which is
  undefined behaviour in the source.
* The random source, the event queue, the keyboard state and the clock are
  inputs of the functions that consume them.
* `float` times are exact rationals.
-/

namespace Tetris

/-! ## Constants and data -/

/-- `GRID_HEIGHT` of the source (line 8). -/
abbrev GRID_HEIGHT : Nat := 20

/-- `GRID_WIDTH` of the source (line 9). -/
abbrev GRID_WIDTH : Nat := 10

/-- `INITIAL_DELAY = 0.3f` (line 10), as an exact rational. -/
def INITIAL_DELAY : ℚ := 3 / 10

/-- `FAST_DELAY = 0.05f` (line 11), as an exact rational. -/
def FAST_DELAY : ℚ := 1 / 20

/-- `struct Point` (lines 16-19). -/
structure Point where
  x : Int
  y : Int
deriving DecidableEq, Repr

/-- `class Tetromino` (lines 21-49): `blocks` is `std::array<Point, 4>`, kept
as the four fields `b0 .. b3`, and `colorNum`. -/
structure Tetromino where
  b0 : Point
  b1 : Point
  b2 : Point
  b3 : Point
  colorNum : Int
deriving DecidableEq, Repr

/-- The static table `Tetromino::SHAPES` (lines 235-243). -/
def SHAPES : List (List Int) :=
  [ [1, 3, 5, 7],   -- I
    [2, 4, 5, 7],   -- Z
    [3, 5, 4, 6],   -- S
    [3, 5, 4, 7],   -- T
    [2, 3, 5, 7],   -- L
    [3, 5, 7, 6],   -- J
    [2, 3, 4, 5] ]  -- O

/-- Checked indexing `a[i]` of a list by a C++ `int`. -/
def idx? {α : Type} (a : List α) (i : Int) : Option α :=
  if 0 ≤ i then a.get? i.toNat else none

/-- Checked store `a[i] = v` into a list by a C++ `int`. -/
def upd? {α : Type} (a : List α) (i : Int) (v : α) : Option (List α) :=
  if 0 ≤ i ∧ i.toNat < a.length then some (a.set i.toNat v) else none

/-- The read `blocks[i]`. -/
def Tetromino.get (t : Tetromino) (i : Fin 4) : Point :=
  match i with
  | 0 => t.b0
  | 1 => t.b1
  | 2 => t.b2
  | 3 => t.b3

/-- The store `blocks[i] = p`. -/
def Tetromino.set (t : Tetromino) (i : Fin 4) (p : Point) : Tetromino :=
  match i with
  | 0 => { t with b0 := p }
  | 1 => { t with b1 := p }
  | 2 => { t with b2 := p }
  | 3 => { t with b3 := p }

/-- The four cells in iteration order (`for (auto& block : blocks)`). -/
def Tetromino.blocks (t : Tetromino) : List Point :=
  [t.b0, t.b1, t.b2, t.b3]

/-- Constructor `Tetromino(int shapeNum, int color)` (lines 27-32):
`blocks[i] = (SHAPES[shapeNum][i] % 2, SHAPES[shapeNum][i] / 2)` with the
truncating C++ operators. -/
def Tetromino.new (shapeNum : Int) (color : Int) : Option Tetromino := do
  let shape ← idx? SHAPES shapeNum
  let s0 ← idx? shape 0
  let s1 ← idx? shape 1
  let s2 ← idx? shape 2
  let s3 ← idx? shape 3
  pure { b0 := ⟨Int.tmod s0 2, Int.tdiv s0 2⟩
         b1 := ⟨Int.tmod s1 2, Int.tdiv s1 2⟩
         b2 := ⟨Int.tmod s2 2, Int.tdiv s2 2⟩
         b3 := ⟨Int.tmod s3 2, Int.tdiv s3 2⟩
         colorNum := color }

/-- What a `const Point&` argument of a `Tetromino` method refers to: a point
object outside the piece, or the cell `blocks[i]` of the piece itself. -/
inductive PointRef where
  | val (p : Point)
  | block (i : Fin 4)
deriving DecidableEq, Repr

/-- Reading through the reference in the current state of the piece. -/
def PointRef.deref (c : PointRef) (t : Tetromino) : Point :=
  match c with
  | .val p => p
  | .block i => t.get i

/-- One iteration of the loop of `rotate` (lines 36-39) on `blocks[i]`; every
use of `center` reads through the reference at that moment. -/
def Tetromino.rotateBlock (t : Tetromino) (center : PointRef) (i : Fin 4) : Tetromino :=
  let x := (t.get i).y - (center.deref t).y
  let y := (t.get i).x - (center.deref t).x
  let t1 := t.set i { t.get i with x := (center.deref t).x - x }
  t1.set i { t1.get i with y := (center.deref t1).y + y }

/-- `Tetromino::rotate(const Point& center)` (lines 34-41). -/
def Tetromino.rotate (t : Tetromino) (center : PointRef) : Tetromino :=
  [0, 1, 2, 3].foldl (fun t i => t.rotateBlock center i) t

/-- One iteration of the loop of `move` (lines 45-46) on `blocks[i]`. -/
def Tetromino.moveBlock (t : Tetromino) (dx dy : Int) (i : Fin 4) : Tetromino :=
  let t1 := t.set i { t.get i with x := (t.get i).x + dx }
  t1.set i { t1.get i with y := (t1.get i).y + dy }

/-- `Tetromino::move(int dx, int dy)` (lines 43-48). -/
def Tetromino.move (t : Tetromino) (dx dy : Int) : Tetromino :=
  [0, 1, 2, 3].foldl (fun t i => t.moveBlock dx dy i) t

/-- The member `grid` (line 51): rows of cells. -/
abbrev Grid := List (List Int)

/-- The shape fixed by the type
`std::array<std::array<int, GRID_WIDTH>, GRID_HEIGHT>`. -/
def Grid.WF (g : Grid) : Prop :=
  g.length = GRID_HEIGHT ∧ ∀ r ∈ g, r.length = GRID_WIDTH

instance (g : Grid) : Decidable (Grid.WF g) := by
  unfold Grid.WF; infer_instance

/-- The value-initialised grid `grid{}`. -/
def Grid.empty : Grid :=
  List.replicate GRID_HEIGHT (List.replicate GRID_WIDTH 0)

/-- The read `grid[row][col]`. -/
def Grid.read (g : Grid) (row col : Int) : Option Int := do
  let r ← idx? g row
  idx? r col

/-- The store `grid[row][col] = v`. -/
def Grid.write (g : Grid) (row col : Int) (v : Int) : Option Grid := do
  let r ← idx? g row
  let r1 ← upd? r col v
  upd? g row r1

/-- The loop of `isValidPosition` over the remaining blocks, with its two
early returns. -/
def isValidBlocks (grid : Grid) : List Point → Option Bool
  | [] => some true
  | block :: rest =>
    if block.x < 0 ∨ block.x ≥ GRID_WIDTH ∨ block.y ≥ GRID_HEIGHT then
      some false
    else if block.y ≥ 0 then do
      let v ← Grid.read grid block.y block.x
      if v ≠ 0 then some false else isValidBlocks grid rest
    else
      isValidBlocks grid rest

/-- `TetrisGame::isValidPosition` (lines 60-70). -/
def isValidPosition (grid : Grid) (piece : Tetromino) : Option Bool :=
  isValidBlocks grid piece.blocks

/-- The game object: the members `grid`, `currentPiece`, `timer` and
`currentDelay` (lines 51-58). -/
structure TetrisGame where
  grid : Grid
  currentPiece : Tetromino
  timer : ℚ
  currentDelay : ℚ
deriving DecidableEq, Repr

/-- One spawn draw: the values of `shapeDist(rng)` and `colorDist(rng)`. -/
structure Draw where
  shape : Int
  color : Int
deriving DecidableEq, Repr

/-- The ranges of `uniform_int_distribution<int>(0, 6)` and `(1, 7)`
(lines 73-74). -/
def Draw.InRange (d : Draw) : Prop :=
  0 ≤ d.shape ∧ d.shape ≤ 6 ∧ 1 ≤ d.color ∧ d.color ≤ 7

instance (d : Draw) : Decidable d.InRange := by
  unfold Draw.InRange; infer_instance

/-- `TetrisGame::createNewPiece` (lines 72-76). -/
def createNewPiece (st : TetrisGame) (d : Draw) : Option TetrisGame := do
  let p ← Tetromino.new d.shape d.color
  pure { st with currentPiece := p }

/-- The loop of `lockPiece` (lines 79-83) over the remaining blocks. -/
def lockBlocks (grid : Grid) (colorNum : Int) : List Point → Option Grid
  | [] => some grid
  | block :: rest =>
    if block.y ≥ 0 then do
      let g ← Grid.write grid block.y block.x colorNum
      lockBlocks g colorNum rest
    else
      lockBlocks grid colorNum rest

/-- `TetrisGame::lockPiece` (lines 78-85). -/
def lockPiece (st : TetrisGame) (d : Draw) : Option TetrisGame := do
  let g ← lockBlocks st.grid st.currentPiece.colorNum st.currentPiece.blocks
  createNewPiece { st with grid := g } d

/-- The counting loop of `clearLines` (lines 91-95) over the remaining
columns. -/
def countBlocks (grid : Grid) (readRow : Int) : List Nat → Int → Option Int
  | [], blockCount => some blockCount
  | col :: cols, blockCount => do
    let v ← Grid.read grid readRow col
    countBlocks grid readRow cols (if v ≠ 0 then blockCount + 1 else blockCount)

/-- The copy loop of `clearLines` (lines 99-101) over the remaining columns. -/
def copyRow (grid : Grid) (writeRow readRow : Int) : List Nat → Option Grid
  | [] => some grid
  | col :: cols => do
    let v ← Grid.read grid readRow col
    let g ← Grid.write grid writeRow col v
    copyRow g writeRow readRow cols

/-- The scan loop of `clearLines` (lines 89-105); the first argument is
`readRow + 1`, so the loop ends at `0`. -/
def scanRows : Nat → Grid → Int → Option (Grid × Int)
  | 0, grid, writeRow => some (grid, writeRow)
  | readRow + 1, grid, writeRow => do
    let blockCount ← countBlocks grid readRow (List.range GRID_WIDTH) 0
    if blockCount < GRID_WIDTH then do
      let g ← if writeRow ≠ readRow
                then copyRow grid writeRow readRow (List.range GRID_WIDTH)
                else some grid
      scanRows readRow g (writeRow - 1)
    else
      scanRows readRow grid writeRow

/-- The inner loop of the final clearing (lines 109-111) over the remaining
columns. -/
def zeroRow (grid : Grid) (row : Int) : List Nat → Option Grid
  | [] => some grid
  | col :: cols => do
    let g ← Grid.write grid row col 0
    zeroRow g row cols

/-- The final clearing loop (lines 108-112); the first argument is
`row + 1`. -/
def zeroRows : Nat → Grid → Option Grid
  | 0, grid => some grid
  | row + 1, grid => do
    let g ← zeroRow grid row (List.range GRID_WIDTH)
    zeroRows row g

/-- `TetrisGame::clearLines` (lines 87-113), on the grid. -/
def clearLines (grid : Grid) : Option Grid := do
  let (g, writeRow) ← scanRows GRID_HEIGHT grid (GRID_HEIGHT - 1)
  zeroRows (writeRow + 1).toNat g

/-- Key codes that `handleInput` distinguishes. -/
inductive Key where
  | Up | Left | Right | Other
deriving DecidableEq, Repr

/-- Window events that `handleInput` distinguishes. -/
inductive Event where
  | Closed
  | KeyPressed (code : Key)
  | Other
deriving DecidableEq, Repr

/-- The validate-and-commit step shared by the three cases of the switch
(lines 169-171, 175-177, 181-183). -/
def commitIfValid (st : TetrisGame) (tempPiece : Tetromino) : Option TetrisGame := do
  let ok ← isValidPosition st.grid tempPiece
  if ok then pure { st with currentPiece := tempPiece } else pure st

/-- The body of the event loop of `handleInput` (lines 159-188) for one
event.  Closing the window touches no member modelled here. -/
def handleEvent (st : TetrisGame) (event : Event) : Option TetrisGame :=
  match event with
  | .KeyPressed code =>
    let tempPiece := st.currentPiece
    match code with
    | .Up => commitIfValid st (tempPiece.rotate (.block 1))
    | .Left => commitIfValid st (tempPiece.move (-1) 0)
    | .Right => commitIfValid st (tempPiece.move 1 0)
    | .Other => some st
  | _ => some st

/-- The event loop of `handleInput` (lines 158-189). -/
def handleEvents (st : TetrisGame) : List Event → Option TetrisGame
  | [] => some st
  | event :: events => do
    let st1 ← handleEvent st event
    handleEvents st1 events

/-- `TetrisGame::handleInput` (lines 156-193): `events` is what `pollEvent`
delivers, `downPressed` the value of `isKeyPressed(Down)`. -/
def handleInput (st : TetrisGame) (events : List Event) (downPressed : Bool) :
    Option TetrisGame := do
  let st1 ← handleEvents st events
  pure { st1 with currentDelay := if downPressed then FAST_DELAY else INITIAL_DELAY }

/-- `TetrisGame::update` (lines 195-209); `d` is the draw used if a piece is
spawned. -/
def update (st : TetrisGame) (d : Draw) : Option TetrisGame :=
  if st.timer > st.currentDelay then do
    let st0 : TetrisGame := { st with timer := 0 }
    let tempPiece := st0.currentPiece.move 0 1
    let ok ← isValidPosition st0.grid tempPiece
    if ok then
      pure { st0 with currentPiece := tempPiece }
    else do
      let st1 ← lockPiece st0 d
      let g ← clearLines st1.grid
      pure { st1 with grid := g }
  else
    some st

/-- The core part of the constructor (lines 125-140): zeroed grid, default
member initialisers, first `createNewPiece`. -/
def TetrisGame.init (d : Draw) : Option TetrisGame := do
  let p ← Tetromino.new d.shape d.color
  pure { grid := Grid.empty, currentPiece := p, timer := 0, currentDelay := INITIAL_DELAY }

/-- One iteration of the loop of `run` (lines 146-150), rendering left out. -/
def runIter (st : TetrisGame) (deltaTime : ℚ) (events : List Event) (downPressed : Bool)
    (d : Draw) : Option TetrisGame := do
  let st1 ← handleInput { st with timer := st.timer + deltaTime } events downPressed
  update st1 d

/-! ## Reference definitions from the specification, and the step relation -/

/-- The decoded local cells of the seven shapes as the specification lists
them (section 4.1 read through `index % 2`, `index / 2`); the constructor is
compared with this table. -/
def catalogCells : List (List Point) :=
  [ [⟨1, 0⟩, ⟨1, 1⟩, ⟨1, 2⟩, ⟨1, 3⟩],
    [⟨0, 1⟩, ⟨0, 2⟩, ⟨1, 2⟩, ⟨1, 3⟩],
    [⟨1, 1⟩, ⟨1, 2⟩, ⟨0, 2⟩, ⟨0, 3⟩],
    [⟨1, 1⟩, ⟨1, 2⟩, ⟨0, 2⟩, ⟨1, 3⟩],
    [⟨0, 1⟩, ⟨1, 1⟩, ⟨1, 2⟩, ⟨1, 3⟩],
    [⟨1, 1⟩, ⟨1, 2⟩, ⟨1, 3⟩, ⟨0, 3⟩],
    [⟨0, 1⟩, ⟨1, 1⟩, ⟨0, 2⟩, ⟨1, 2⟩] ]

/-- A row is full when all its cells are non-zero (section 4.4 of the
specification); the loop of `clearLines` is compared with this predicate. -/
def isFullRow (r : List Int) : Bool :=
  r.all (fun v => decide (v ≠ 0))

/-- An all-zero row. -/
def zeroRowValue : List Int :=
  List.replicate GRID_WIDTH 0

/-- Line clearing as the specification words its net effect: the full rows
are removed, the other rows keep their order at the bottom, and as many
all-zero rows as were removed are on top. -/
def clearLinesSpec (g : Grid) : Grid :=
  List.replicate (g.filter isFullRow).length zeroRowValue ++
    g.filter (fun r => !isFullRow r)

/-- The locking gravity tick in the order the specification words it
(section 4.5): lock the current piece into the board, run line clearing, then
spawn a new current piece.  `update` is compared with this. -/
def lockClearSpawn (st : TetrisGame) (d : Draw) : Option TetrisGame := do
  let g1 ← lockBlocks st.grid st.currentPiece.colorNum st.currentPiece.blocks
  let g2 ← clearLines g1
  let p ← Tetromino.new d.shape d.color
  pure { st with grid := g2, currentPiece := p }

/-- The steps that change the game object while `run` executes: the clock
adds a non-negative time to `timer`, `handleInput` processes one event,
`handleInput` samples the Down key, and `update` runs with a draw in range. -/
inductive Step : TetrisGame → TetrisGame → Prop where
  | elapse (st : TetrisGame) (deltaTime : ℚ) (h : 0 ≤ deltaTime) :
      Step st { st with timer := st.timer + deltaTime }
  | event (st st1 : TetrisGame) (ev : Event) (h : handleEvent st ev = some st1) :
      Step st st1
  | sample (st : TetrisGame) (downPressed : Bool) :
      Step st { st with currentDelay := if downPressed then FAST_DELAY else INITIAL_DELAY }
  | update (st st1 : TetrisGame) (d : Draw) (hd : d.InRange) (h : update st d = some st1) :
      Step st st1

/-- The states the game object can be in: the constructed state for a first
draw in range, and everything reached from it by steps. -/
inductive Reachable : TetrisGame → Prop where
  | init (d : Draw) (hd : d.InRange) (st : TetrisGame) (h : TetrisGame.init d = some st) :
      Reachable st
  | step (st st1 : TetrisGame) (hr : Reachable st) (hs : Step st st1) : Reachable st1

/-- Every cell of the grid is `0` (empty) or a colour identifier `1..7`. -/
def Grid.CellsInRange (g : Grid) : Prop :=
  ∀ r ∈ g, ∀ v ∈ r, 0 ≤ v ∧ v ≤ 7

instance (g : Grid) : Decidable (Grid.CellsInRange g) := by
  unfold Grid.CellsInRange; infer_instance

/-! ## Instrumented loops -/

/-- The grid indices `(row, col)` read by the loop of `isValidPosition`, in
order: the control flow of `isValidBlocks` with every read
`grid[block.y][block.x]` recorded. -/
def isValidBlocksReads (grid : Grid) : List Point → List (Int × Int)
  | [] => []
  | block :: rest =>
    if block.x < 0 ∨ block.x ≥ GRID_WIDTH ∨ block.y ≥ GRID_HEIGHT then
      []
    else if block.y ≥ 0 then
      (block.y, block.x) ::
        (match Grid.read grid block.y block.x with
         | some v => if v ≠ 0 then [] else isValidBlocksReads grid rest
         | none => [])
    else
      isValidBlocksReads grid rest

/-- The scan loop of `clearLines` with its cursors recorded: the control flow
of `scanRows`, returning in addition the pair `(readRow, writeRow)` at every
non-full row, where the row is copied to `writeRow` (or left in place when the
two are equal) before `writeRow` is decremented. -/
def scanRowsCursors : Nat → Grid → Int → Option (List (Int × Int) × Grid × Int)
  | 0, grid, writeRow => some ([], grid, writeRow)
  | readRow + 1, grid, writeRow => do
    let blockCount ← countBlocks grid readRow (List.range GRID_WIDTH) 0
    if blockCount < GRID_WIDTH then do
      let g ← if writeRow ≠ readRow
                then copyRow grid writeRow readRow (List.range GRID_WIDTH)
                else some grid
      let (cursors, g1, w1) ← scanRowsCursors readRow g (writeRow - 1)
      pure (((readRow : Int), writeRow) :: cursors, g1, w1)
    else
      scanRowsCursors readRow grid writeRow

/-- The piece is a catalog shape under rotation and translation: its cells
are, in order, those of shape `s` (`0..6`) built with the piece's colour,
rotated `k` times (`0..3`) about that shape's `blocks[1]` and then moved by
`(dx, dy)`. -/
def IsCatalogPiece (p : Tetromino) : Prop :=
  ∃ (s : Int) (k : Nat) (dx dy : Int) (t0 : Tetromino),
    0 ≤ s ∧ s ≤ 6 ∧ k ≤ 3 ∧ Tetromino.new s p.colorNum = some t0 ∧
    p = ((fun u : Tetromino => u.rotate (PointRef.val t0.b1))^[k] t0).move dx dy

/-- Consecutive iterations of the loop of `run` with one second elapsed per
iteration, no window event pending and the Down key released; one spawn draw
is supplied per iteration. -/
def gravityRun : List Draw → TetrisGame → Option TetrisGame
  | [], st => some st
  | d :: ds, st => (runIter st 1 [] false d).bind (gravityRun ds)

/-! ## Checked accesses on a well-formed grid -/

theorem idx?_eq_some_of_lt {α : Type} (a : List α) (i : Int) (h0 : 0 ≤ i)
    (h1 : i.toNat < a.length) : idx? a i = some a[i.toNat] := by
  simp [idx?, h0, List.getElem?_eq_getElem h1]

theorem idx?_eq_none_of_neg {α : Type} (a : List α) (i : Int) (h0 : i < 0) :
    idx? a i = none := by
  simp [idx?, h0]

theorem Grid.read_some_of_WF (g : Grid) (hg : Grid.WF g) (row col : Int)
    (hr0 : 0 ≤ row) (hr1 : row < GRID_HEIGHT) (hc0 : 0 ≤ col) (hc1 : col < GRID_WIDTH) :
    ∃ v, Grid.read g row col = some v := by
  obtain ⟨hlen, hrows⟩ := hg
  have h1 : row.toNat < g.length := by simp only [GRID_HEIGHT] at *; omega
  have hrl := hrows g[row.toNat] (List.getElem_mem _)
  have h2 : col.toNat < g[row.toNat].length := by
    simp only [GRID_WIDTH] at *; omega
  refine ⟨g[row.toNat][col.toNat], ?_⟩
  simp [Grid.read, idx?_eq_some_of_lt g row hr0 h1, idx?_eq_some_of_lt _ col hc0 h2]

/-! ## Validity checker -/

theorem isValidBlocks_eq (g : Grid) (hg : Grid.WF g) (bs : List Point) :
    isValidBlocks g bs = some (decide (∀ b ∈ bs, 0 ≤ b.x ∧ b.x < 10 ∧ b.y < 20 ∧
      (b.y < 0 ∨ Grid.read g b.y b.x = some 0))) := by
  induction bs with
  | nil => simp [isValidBlocks]
  | cons b rest ih =>
    unfold isValidBlocks
    by_cases hb : b.x < 0 ∨ b.x ≥ GRID_WIDTH ∨ b.y ≥ GRID_HEIGHT
    · rw [if_pos hb]
      simp only [GRID_WIDTH, GRID_HEIGHT, Nat.cast_ofNat] at hb
      simp only [List.mem_cons, forall_eq_or_imp, Option.some.injEq]
      symm; rw [decide_eq_false_iff_not]
      intro h; omega
    · rw [if_neg hb]
      simp only [GRID_WIDTH, GRID_HEIGHT, Nat.cast_ofNat, not_or, not_lt, ge_iff_le, not_le] at hb
      by_cases hy : b.y ≥ 0
      · rw [if_pos hy]
        obtain ⟨v, hv⟩ := Grid.read_some_of_WF g hg b.y b.x hy (by simp; omega) hb.1 (by simp; omega)
        rw [hv]
        by_cases hv0 : v = 0
        · subst hv0
          simp [ih, hb, hy, hv]
        · have hy2 : ¬ b.y < 0 := by omega
          simp [hv0, hb, hv, hy2]
      · rw [if_neg hy, ih]
        have hy2 : b.y < 0 := by omega
        simp [hb, hy2]

theorem isValidPosition_valid_total (g : Grid) (hg : Grid.WF g) (p : Tetromino) :
    ∃ r, isValidPosition g p = some r :=
  ⟨_, isValidBlocks_eq g hg p.blocks⟩

/-- C1: on every 20x10 board and for every piece, `isValidPosition` returns a
Boolean, and it returns `true` exactly when each of the 4 cells `(x, y)` has
`0 ≤ x < 10`, `y < 20` and (`y < 0` or `board[y][x] = 0`).  In particular a
piece whose cells are all inside the grid and on empty cells is valid, and a
piece with some cell at `x < 0`, `x > 9` or `y > 19` is invalid whatever the
board holds. -/
theorem isValidPosition_iff_cells (g : Grid) (hg : Grid.WF g) (p : Tetromino) :
    (∃ r, isValidPosition g p = some r) ∧
    (isValidPosition g p = some true ↔
      ∀ b ∈ p.blocks, 0 ≤ b.x ∧ b.x < 10 ∧ b.y < 20 ∧
        (b.y < 0 ∨ Grid.read g b.y b.x = some 0)) ∧
    ((∀ b ∈ p.blocks, 0 ≤ b.x ∧ b.x < 10 ∧ 0 ≤ b.y ∧ b.y < 20 ∧
        Grid.read g b.y b.x = some 0) → isValidPosition g p = some true) ∧
    ((∃ b ∈ p.blocks, b.x < 0 ∨ b.x > 9 ∨ b.y > 19) →
      isValidPosition g p = some false) := by
  have h := isValidBlocks_eq g hg p.blocks
  refine ⟨⟨_, h⟩, ?_, ?_, ?_⟩
  · unfold isValidPosition
    rw [h]
    simp only [Option.some.injEq, decide_eq_true_eq]
  · intro hall
    unfold isValidPosition
    rw [h, Option.some.injEq, decide_eq_true_eq]
    intro b hb
    obtain ⟨h1, h2, _, h4, h5⟩ := hall b hb
    exact ⟨h1, h2, h4, Or.inr h5⟩
  · rintro ⟨b, hb, hout⟩
    unfold isValidPosition
    rw [h, Option.some.injEq, decide_eq_false_iff_not]
    intro hall
    have := hall b hb
    omega

/-- Witness for C1 on the empty board and the O piece at its spawn cells. -/
theorem isValidPosition_iff_cells_witness :
    Grid.WF Grid.empty ∧
    isValidPosition Grid.empty ⟨⟨0, 1⟩, ⟨1, 1⟩, ⟨0, 2⟩, ⟨1, 2⟩, 2⟩ = some true ∧
    isValidPosition Grid.empty ⟨⟨-1, 1⟩, ⟨0, 1⟩, ⟨-1, 2⟩, ⟨0, 2⟩, 2⟩ = some false :=
  ⟨by decide,
   (isValidPosition_iff_cells Grid.empty (by decide) _).2.2.1 (by decide),
   (isValidPosition_iff_cells Grid.empty (by decide) _).2.2.2 (by decide)⟩

/-! ## Shape catalog and constructor -/

theorem Tetromino_new_cells (k c : Int) (hk0 : 0 ≤ k) (hk6 : k ≤ 6) :
    ∃ t shape, Tetromino.new k c = some t ∧ t.colorNum = c ∧
      idx? SHAPES k = some shape ∧
      t.blocks = shape.map (fun s => (⟨Int.tmod s 2, Int.tdiv s 2⟩ : Point)) ∧
      idx? catalogCells k = some t.blocks ∧
      ∀ b ∈ t.blocks, 0 ≤ b.x ∧ b.x ≤ 1 ∧ 0 ≤ b.y ∧ b.y ≤ 3 := by
  interval_cases k <;>
    exact ⟨_, _, rfl, rfl, rfl, rfl, rfl, by
      intro b hb
      simp only [Tetromino.blocks, List.mem_cons, List.mem_singleton, List.not_mem_nil,
        or_false] at hb
      rcases hb with rfl | rfl | rfl | rfl <;> decide⟩

/-- C8: for every shape index `k` in `0..6` and every colour `c`, the
constructor yields colour `c` and the cells
`blocks[i] = (SHAPES[k][i] % 2, SHAPES[k][i] / 2)`, which are exactly the
cells listed for `k` in the shape table of the specification; every decoded
cell lies in the local frame `0 ≤ x ≤ 1`, `0 ≤ y ≤ 3`. -/
theorem Tetromino_new_decodes_catalog (k c : Int) (hk0 : 0 ≤ k) (hk6 : k ≤ 6) :
    ∃ t shape, Tetromino.new k c = some t ∧ t.colorNum = c ∧
      idx? SHAPES k = some shape ∧
      t.blocks = shape.map (fun s => (⟨Int.tmod s 2, Int.tdiv s 2⟩ : Point)) ∧
      idx? catalogCells k = some t.blocks ∧
      ∀ b ∈ t.blocks, 0 ≤ b.x ∧ b.x ≤ 1 ∧ 0 ≤ b.y ∧ b.y ≤ 3 :=
  Tetromino_new_cells k c hk0 hk6

/-- Witness for C8 at the T shape with colour 5. -/
theorem Tetromino_new_decodes_catalog_witness :
    ∃ t shape, Tetromino.new 3 5 = some t ∧ t.colorNum = 5 ∧
      idx? SHAPES 3 = some shape ∧
      t.blocks = shape.map (fun s => (⟨Int.tmod s 2, Int.tdiv s 2⟩ : Point)) ∧
      idx? catalogCells 3 = some t.blocks ∧
      ∀ b ∈ t.blocks, 0 ≤ b.x ∧ b.x ≤ 1 ∧ 0 ≤ b.y ∧ b.y ≤ 3 :=
  Tetromino_new_decodes_catalog 3 5 (by decide) (by decide)

theorem Grid.read_eq_getElem? (g : Grid) (row col : Int) (hr : 0 ≤ row) (hc : 0 ≤ col) :
    Grid.read g row col = g[row.toNat]?.bind (fun r => r[col.toNat]?) := by
  simp [Grid.read, idx?, hr, hc]

theorem Grid.read_eq_none_of_neg (g : Grid) (row col : Int) (h : row < 0 ∨ col < 0) :
    Grid.read g row col = none := by
  unfold Grid.read idx?
  rcases h with h | h
  · simp [not_le.mpr h]
  · cases hrow : (if 0 ≤ row then g.get? row.toNat else none) <;> simp [not_le.mpr h]

theorem Grid.write_eq_set (g : Grid) (row col v : Int) (hr : 0 ≤ row) (hc : 0 ≤ col)
    (r : List Int) (hrow : g[row.toNat]? = some r) (hcol : col.toNat < r.length) :
    Grid.write g row col v = some (g.set row.toNat (r.set col.toNat v)) := by
  have hlt : row.toNat < g.length := by
    by_contra hge
    rw [List.getElem?_eq_none (not_lt.mp hge)] at hrow
    exact Option.noConfusion hrow
  have hcol1 : col < (r.length : Int) := by omega
  simp [Grid.write, idx?, upd?, hr, hc, hrow, hcol1, hlt]

theorem Grid.WF_set (g : Grid) (hg : Grid.WF g) (n : Nat) (r : List Int)
    (hr : r.length = GRID_WIDTH) : Grid.WF (g.set n r) := by
  refine ⟨by simpa using hg.1, ?_⟩
  intro r1 hr1
  rcases List.mem_or_eq_of_mem_set hr1 with h | h
  · exact hg.2 r1 h
  · rw [h, hr]

theorem Grid.write_spec (g : Grid) (hg : Grid.WF g) (row col v : Int)
    (hr0 : 0 ≤ row) (hr1 : row < GRID_HEIGHT) (hc0 : 0 ≤ col) (hc1 : col < GRID_WIDTH) :
    ∃ g1, Grid.write g row col v = some g1 ∧ Grid.WF g1 ∧
      Grid.read g1 row col = some v ∧
      ∀ r c, ¬ (r = row ∧ c = col) → Grid.read g1 r c = Grid.read g r c := by
  have h1 : row.toNat < g.length := by have := hg.1; simp only [GRID_HEIGHT] at *; omega
  have hrow : g[row.toNat]? = some g[row.toNat] := List.getElem?_eq_getElem h1
  have hrl : g[row.toNat].length = GRID_WIDTH := hg.2 _ (List.getElem_mem _)
  have h2 : col.toNat < g[row.toNat].length := by simp only [GRID_WIDTH] at *; omega
  refine ⟨_, Grid.write_eq_set g row col v hr0 hc0 _ hrow h2, ?_, ?_, ?_⟩
  · exact Grid.WF_set g hg _ _ (by simpa using hrl)
  · rw [Grid.read_eq_getElem? _ _ _ hr0 hc0]
    simp [h1, h2]
  · intro r c hne
    by_cases hneg : r < 0 ∨ c < 0
    · rw [Grid.read_eq_none_of_neg _ _ _ hneg, Grid.read_eq_none_of_neg _ _ _ hneg]
    · simp only [not_or, not_lt] at hneg
      rw [Grid.read_eq_getElem? _ _ _ hneg.1 hneg.2, Grid.read_eq_getElem? _ _ _ hneg.1 hneg.2]
      by_cases hrr : r = row
      · subst hrr
        have hcc : col.toNat ≠ c.toNat := by
          intro h; apply hne; refine ⟨rfl, ?_⟩; omega
        simp [h1, List.getElem?_set_ne hcc]
      · have hrr2 : row.toNat ≠ r.toNat := by omega
        rw [List.getElem?_set_ne hrr2]

theorem lockBlocks_spec_aux (c : Int) (bs : List Point) :
    ∀ g : Grid, Grid.WF g → (∀ b ∈ bs, 0 ≤ b.x ∧ b.x < 10 ∧ b.y < 20) →
    ∃ g1, lockBlocks g c bs = some g1 ∧ Grid.WF g1 ∧
      (∀ b ∈ bs, 0 ≤ b.y → Grid.read g1 b.y b.x = some c) ∧
      (∀ row col, (∀ b ∈ bs, 0 ≤ b.y → ¬ (b.y = row ∧ b.x = col)) →
        Grid.read g1 row col = Grid.read g row col) := by
  induction bs with
  | nil =>
    intro g hg _
    exact ⟨g, rfl, hg, by simp, by simp⟩
  | cons b rest ih =>
    intro g hg hin
    have hb := hin b (List.mem_cons_self _ _)
    have hrest : ∀ b1 ∈ rest, 0 ≤ b1.x ∧ b1.x < 10 ∧ b1.y < 20 :=
      fun b1 h => hin b1 (List.mem_cons_of_mem _ h)
    unfold lockBlocks
    by_cases hy : b.y ≥ 0
    · rw [if_pos hy]
      obtain ⟨g1, hw, hwf1, hrd, hfr⟩ :=
        Grid.write_spec g hg b.y b.x c hy (by simp; omega) hb.1 (by simp; omega)
      obtain ⟨g2, hl, hwf2, hcol, hframe⟩ := ih g1 hwf1 hrest
      refine ⟨g2, by simp [hw, hl], hwf2, ?_, ?_⟩
      · intro b1 hb1 hb1y
        rcases List.mem_cons.mp hb1 with h | h
        · subst h
          by_cases hex : ∃ b2 ∈ rest, 0 ≤ b2.y ∧ b2.y = b1.y ∧ b2.x = b1.x
          · obtain ⟨b2, hb2, hb2y, hyy, hxx⟩ := hex
            have := hcol b2 hb2 hb2y
            rwa [hyy, hxx] at this
          · rw [hframe b1.y b1.x (by
              intro b2 hb2 hb2y h; exact hex ⟨b2, hb2, hb2y, h.1, h.2⟩)]
            exact hrd
        · exact hcol b1 h hb1y
      · intro row col hno
        rw [hframe row col (fun b2 hb2 => hno b2 (List.mem_cons_of_mem _ hb2))]
        exact hfr row col (fun h => hno b (List.mem_cons_self _ _) hy ⟨h.1.symm, h.2.symm⟩)
    · rw [if_neg hy]
      obtain ⟨g2, hl, hwf2, hcol, hframe⟩ := ih g hg hrest
      refine ⟨g2, hl, hwf2, ?_, ?_⟩
      · intro b1 hb1 hb1y
        rcases List.mem_cons.mp hb1 with h | h
        · subst h; exact absurd hb1y hy
        · exact hcol b1 h hb1y
      · intro row col hno
        exact hframe row col (fun b2 hb2 => hno b2 (List.mem_cons_of_mem _ hb2))

theorem lockBlocks_filter (c : Int) (bs : List Point) :
    ∀ g : Grid, lockBlocks g c bs = lockBlocks g c (bs.filter (fun b => decide (0 ≤ b.y))) := by
  induction bs with
  | nil => intro g; rfl
  | cons b rest ih =>
    intro g
    by_cases hy : b.y ≥ 0
    · have hf : (b :: rest).filter (fun b => decide (0 ≤ b.y))
          = b :: rest.filter (fun b => decide (0 ≤ b.y)) := by
        simp [List.filter_cons, hy]
      rw [hf]
      simp only [lockBlocks, if_pos hy]
      cases Grid.write g b.y b.x c with
      | none => rfl
      | some g1 => simpa using ih g1
    · have hf : (b :: rest).filter (fun b => decide (0 ≤ b.y))
          = rest.filter (fun b => decide (0 ≤ b.y)) := by
        simp [List.filter_cons, hy]
      rw [hf]
      conv_lhs => unfold lockBlocks
      rw [if_neg hy]
      exact ih g

/-- C3: on a 20x10 board and for a piece whose cells all have `0 ≤ x < 10`
and `y < 20`, the write loop of `lockPiece` succeeds and yields a 20x10 board
in which `board[y][x]` is the piece's colour for every piece cell with
`y ≥ 0`, and every cell that is not such a piece cell is unchanged; cells with
`y < 0` cause no write (the loop has the effect of the loop over the cells with
`y ≥ 0` alone).  `lockPiece` installs exactly this board. -/
theorem lockPiece_board_write (st : TetrisGame) (d : Draw) (hg : Grid.WF st.grid)
    (hp : ∀ b ∈ st.currentPiece.blocks, 0 ≤ b.x ∧ b.x < 10 ∧ b.y < 20)
    (hd : d.InRange) :
    ∃ g1 st1, lockBlocks st.grid st.currentPiece.colorNum st.currentPiece.blocks = some g1 ∧
      lockPiece st d = some st1 ∧ st1.grid = g1 ∧ Grid.WF g1 ∧
      (∀ b ∈ st.currentPiece.blocks, 0 ≤ b.y →
        Grid.read g1 b.y b.x = some st.currentPiece.colorNum) ∧
      (∀ row col, (∀ b ∈ st.currentPiece.blocks, 0 ≤ b.y → ¬ (b.y = row ∧ b.x = col)) →
        Grid.read g1 row col = Grid.read st.grid row col) ∧
      lockBlocks st.grid st.currentPiece.colorNum st.currentPiece.blocks =
        lockBlocks st.grid st.currentPiece.colorNum
          (st.currentPiece.blocks.filter (fun b => decide (0 ≤ b.y))) := by
  obtain ⟨g1, hl, hwf, hcol, hframe⟩ :=
    lockBlocks_spec_aux st.currentPiece.colorNum st.currentPiece.blocks st.grid hg hp
  obtain ⟨t, _, hnew, _⟩ := Tetromino_new_cells d.shape d.color hd.1 hd.2.1
  refine ⟨g1, { st with grid := g1, currentPiece := t }, hl, ?_, rfl, hwf, hcol, hframe,
    lockBlocks_filter _ _ _⟩
  simp [lockPiece, hl, createNewPiece, hnew]

/-- Witness for C3: an S piece hanging over the top edge of the empty board. -/
theorem lockPiece_board_write_witness :
    ∃ g1 st1,
      lockBlocks Grid.empty 4 [⟨1, -1⟩, ⟨1, 0⟩, ⟨0, 0⟩, ⟨0, 1⟩] = some g1 ∧
      lockPiece ⟨Grid.empty, ⟨⟨1, -1⟩, ⟨1, 0⟩, ⟨0, 0⟩, ⟨0, 1⟩, 4⟩, 0, INITIAL_DELAY⟩ ⟨6, 2⟩
        = some st1 ∧ st1.grid = g1 ∧ Grid.WF g1 ∧ Grid.read g1 0 1 = some 4 :=
  let ⟨g1, st1, h1, h2, h3, h4, h5, _⟩ :=
    lockPiece_board_write ⟨Grid.empty, ⟨⟨1, -1⟩, ⟨1, 0⟩, ⟨0, 0⟩, ⟨0, 1⟩, 4⟩, 0, INITIAL_DELAY⟩
      ⟨6, 2⟩ (by decide) (by decide) (by decide)
  ⟨g1, st1, h1, h2, h3, h4, h5 ⟨1, 0⟩ (by decide) (by decide)⟩

/-! ## Rotation and translation -/

theorem Tetromino.rotate_val (t : Tetromino) (p : Point) :
    t.rotate (.val p) =
      { b0 := ⟨p.x - (t.b0.y - p.y), p.y + (t.b0.x - p.x)⟩
        b1 := ⟨p.x - (t.b1.y - p.y), p.y + (t.b1.x - p.x)⟩
        b2 := ⟨p.x - (t.b2.y - p.y), p.y + (t.b2.x - p.x)⟩
        b3 := ⟨p.x - (t.b3.y - p.y), p.y + (t.b3.x - p.x)⟩
        colorNum := t.colorNum } := by
  simp [Tetromino.rotate, Tetromino.rotateBlock, Tetromino.get, Tetromino.set, PointRef.deref]

theorem Tetromino.rotate_block1 (t : Tetromino) :
    t.rotate (.block 1) =
      { b0 := ⟨t.b1.x - (t.b0.y - t.b1.y), t.b1.y + (t.b0.x - t.b1.x)⟩
        b1 := t.b1
        b2 := ⟨t.b1.x - (t.b2.y - t.b1.y), t.b1.y + (t.b2.x - t.b1.x)⟩
        b3 := ⟨t.b1.x - (t.b3.y - t.b1.y), t.b1.y + (t.b3.x - t.b1.x)⟩
        colorNum := t.colorNum } := by
  simp [Tetromino.rotate, Tetromino.rotateBlock, Tetromino.get, Tetromino.set, PointRef.deref]

theorem Tetromino.move_eq (t : Tetromino) (dx dy : Int) :
    t.move dx dy =
      { b0 := ⟨t.b0.x + dx, t.b0.y + dy⟩
        b1 := ⟨t.b1.x + dx, t.b1.y + dy⟩
        b2 := ⟨t.b2.x + dx, t.b2.y + dy⟩
        b3 := ⟨t.b3.x + dx, t.b3.y + dy⟩
        colorNum := t.colorNum } := by
  simp [Tetromino.move, Tetromino.moveBlock, Tetromino.get, Tetromino.set]

/-- C6: the rotation of a rotate intent, `rotate(blocks[1])` with the pivot
argument aliasing the piece's own second cell, maps every cell
`(oldX, oldY)` to `(p.x - (oldY - p.y), p.y + (oldX - p.x))` where `p` is
`blocks[1]` before the call; `blocks[1]` and the colour are unchanged, and the
result equals the rotation about a copy of the pivot. -/
theorem rotate_aliased_pivot (t : Tetromino) :
    (t.rotate (.block 1)).blocks =
        t.blocks.map (fun b => (⟨t.b1.x - (b.y - t.b1.y), t.b1.y + (b.x - t.b1.x)⟩ : Point)) ∧
      (t.rotate (.block 1)).b1 = t.b1 ∧
      (t.rotate (.block 1)).colorNum = t.colorNum ∧
      t.rotate (.block 1) = t.rotate (.val t.b1) := by
  rw [Tetromino.rotate_block1, Tetromino.rotate_val]
  obtain ⟨b0, ⟨x1, y1⟩, b2, b3, c⟩ := t
  refine ⟨?_, rfl, rfl, ?_⟩
  · simp [Tetromino.blocks]
  · simp

/-- C7: for every piece and every pivot, four successive calls of `rotate`
about that pivot give back the piece: all 4 cells in the same order and the
colour.  The pivot may be a separate point or any cell of the piece itself. -/
theorem rotate_four_times (t : Tetromino) (center : PointRef) :
    (((t.rotate center).rotate center).rotate center).rotate center = t := by
  obtain ⟨⟨x0, y0⟩, ⟨x1, y1⟩, ⟨x2, y2⟩, ⟨x3, y3⟩, c⟩ := t
  cases center with
  | val p =>
    simp only [Tetromino.rotate_val]
    simp only [Tetromino.mk.injEq, Point.mk.injEq]
    refine ⟨⟨?_, ?_⟩, ⟨?_, ?_⟩, ⟨?_, ?_⟩, ⟨?_, ?_⟩, trivial⟩ <;> omega
  | block i =>
    fin_cases i <;>
      simp [Tetromino.rotate, Tetromino.rotateBlock, Tetromino.get, Tetromino.set,
        PointRef.deref]

/-! ## Line clearing -/

theorem Grid.read_nat (g : Grid) (n c : Nat) :
    Grid.read g n c = g[n]?.bind (fun r => r[c]?) := by
  rw [Grid.read_eq_getElem? g n c (by omega) (by omega)]
  simp

theorem Grid.write_nat (g : Grid) (n c : Nat) (v : Int) (r : List Int)
    (hrow : g[n]? = some r) (hcol : c < r.length) :
    Grid.write g n c v = some (g.set n (r.set c v)) := by
  have := Grid.write_eq_set g n c v (by omega) (by omega) r (by simpa using hrow)
    (by simpa using hcol)
  simpa using this

theorem countBlocks_range' (g : Grid) (n : Nat) (r : List Int) (hrow : g[n]? = some r) :
    ∀ (m k : Nat) (acc : Int), k + m ≤ r.length →
      countBlocks g n (List.range' k m) acc =
        some (acc + (((r.drop k).take m).countP (fun v => decide (v ≠ 0)) : Nat)) := by
  intro m
  induction m with
  | zero => intro k acc _; simp [countBlocks]
  | succ m ih =>
    intro k acc hk
    have hk1 : k < r.length := by omega
    rw [List.range'_succ, countBlocks, Grid.read_nat, hrow]
    simp only [Option.bind_eq_bind, Option.some_bind, List.getElem?_eq_getElem hk1]
    rw [ih (k + 1) _ (by omega)]
    rw [List.drop_eq_getElem_cons hk1, List.take_succ_cons, List.countP_cons]
    by_cases hv : r[k] = 0
    · simp [hv]
    · simp [hv]; omega

theorem countBlocks_row (g : Grid) (n : Nat) (r : List Int) (hrow : g[n]? = some r)
    (hlen : r.length = GRID_WIDTH) :
    ∃ cnt : Int, countBlocks g n (List.range GRID_WIDTH) 0 = some cnt ∧
      (cnt < GRID_WIDTH ↔ isFullRow r = false) := by
  have h := countBlocks_range' g n r hrow GRID_WIDTH 0 0 (by omega)
  rw [← List.range_eq_range'] at h
  refine ⟨_, h, ?_⟩
  · rw [← hlen]
    simp only [List.drop_zero, List.take_length, zero_add, Nat.cast_lt]
    have hle := List.countP_le_length (fun v : Int => decide (v ≠ 0)) (l := r)
    have heq := List.countP_eq_length (p := fun v : Int => decide (v ≠ 0)) (l := r)
    constructor
    · intro hlt
      have hne : ¬ (List.countP (fun v : Int => decide (v ≠ 0)) r = r.length) := by omega
      rw [heq] at hne
      simpa [isFullRow] using hne
    · intro hnf
      have hne : ¬ (List.countP (fun v : Int => decide (v ≠ 0)) r = r.length) := by
        rw [heq]
        simpa [isFullRow] using hnf
      omega

theorem List.set_take_succ_eq {α : Type} (cur src : List α) (k : Nat) (hk : k < src.length)
    (hlen : cur.length = src.length) (htake : cur.take k = src.take k) :
    (cur.set k src[k]).take (k + 1) = src.take (k + 1) := by
  apply List.ext_getElem
  · simp [hlen]
  · intro i h1 h2
    simp only [List.length_take, List.length_set] at h1 h2
    simp only [List.getElem_take, List.getElem_set]
    by_cases hik : k = i
    · subst hik; simp
    · rw [if_neg hik]
      have hi : i < k := by omega
      have h3 : (cur.take k)[i]? = (src.take k)[i]? := by rw [htake]
      rw [List.getElem?_take_of_lt hi, List.getElem?_take_of_lt hi] at h3
      rw [List.getElem?_eq_getElem (by omega), List.getElem?_eq_getElem (by omega)] at h3
      exact Option.some.inj h3

theorem copyRow_range' (w n : Nat) (hwn : w ≠ n) (src : List Int) :
    ∀ (m k : Nat) (g : Grid) (cur : List Int), g[n]? = some src → g[w]? = some cur →
      cur.length = src.length → cur.take k = src.take k → k + m = src.length →
      copyRow g w n (List.range' k m) = some (g.set w src) := by
  intro m
  induction m with
  | zero =>
    intro k g cur _ hw hlen htake hk
    have hcs : cur = src := by
      have h1 : cur.take k = cur := List.take_of_length_le (by omega)
      have h2 : src.take k = src := List.take_of_length_le (by omega)
      rw [← h1, htake, h2]
    subst hcs
    simp only [List.range'_zero, copyRow, Option.some.injEq]
    apply List.ext_getElem?
    intro i
    by_cases hi : w = i
    · subst hi
      have hwl : w < g.length := by
        by_contra hge
        rw [List.getElem?_eq_none (not_lt.mp hge)] at hw
        exact Option.noConfusion hw
      rw [hw, List.getElem?_set_self hwl]
    · rw [List.getElem?_set_ne hi]
  | succ m ih =>
    intro k g cur hn hw hlen htake hk
    have hk1 : k < src.length := by omega
    have hk2 : k < cur.length := by omega
    rw [List.range'_succ, copyRow, Grid.read_nat, hn]
    simp only [Option.bind_eq_bind, Option.some_bind, List.getElem?_eq_getElem hk1]
    rw [Grid.write_nat g w k _ cur hw hk2]
    simp only [Option.some_bind]
    have hwlt : w < g.length := by
      by_contra hge
      rw [List.getElem?_eq_none (not_lt.mp hge)] at hw
      exact Option.noConfusion hw
    rw [ih (k + 1) (g.set w (cur.set k src[k])) (cur.set k src[k])
      (by rw [List.getElem?_set_ne hwn]; exact hn)
      (List.getElem?_set_self hwlt)
      (by simpa using hlen)
      (List.set_take_succ_eq cur src k hk1 hlen htake)
      (by omega)]
    rw [List.set_set]

theorem copyRow_row (g : Grid) (hg : Grid.WF g) (w n : Nat) (hwn : w ≠ n)
    (hw : w < GRID_HEIGHT) (src : List Int) (hn : g[n]? = some src) :
    copyRow g w n (List.range GRID_WIDTH) = some (g.set w src) := by
  have hwl : w < g.length := by rw [hg.1]; exact hw
  have hsl : src.length = GRID_WIDTH := hg.2 src (List.getElem?_mem hn)
  have hcl : g[w].length = GRID_WIDTH := hg.2 _ (List.getElem_mem _)
  rw [List.range_eq_range']
  exact copyRow_range' w n hwn src GRID_WIDTH 0 g g[w] hn (List.getElem?_eq_getElem hwl)
    (by rw [hcl, hsl]) (by simp) (by omega)

theorem zeroRow_range' (n : Nat) :
    ∀ (m k : Nat) (g : Grid) (cur : List Int), g[n]? = some cur →
      cur.take k = List.replicate k 0 → k + m = cur.length →
      zeroRow g n (List.range' k m) = some (g.set n (List.replicate cur.length 0)) := by
  intro m
  induction m with
  | zero =>
    intro k g cur hn htake hk
    have hcs : cur = List.replicate cur.length 0 := by
      have h1 : cur.take k = cur := List.take_of_length_le (by omega)
      have hk2 : k = cur.length := by omega
      rw [h1] at htake
      rw [← hk2]; exact htake
    simp only [List.range'_zero, zeroRow, Option.some.injEq]
    rw [← hcs]
    apply List.ext_getElem?
    intro i
    by_cases hi : n = i
    · subst hi
      have hnl : n < g.length := by
        by_contra hge
        rw [List.getElem?_eq_none (not_lt.mp hge)] at hn
        exact Option.noConfusion hn
      rw [hn, List.getElem?_set_self hnl]
    · rw [List.getElem?_set_ne hi]
  | succ m ih =>
    intro k g cur hn htake hk
    have hk2 : k < cur.length := by omega
    rw [List.range'_succ, zeroRow, Grid.write_nat g n k _ cur hn hk2]
    simp only [Option.bind_eq_bind, Option.some_bind]
    have hnlt : n < g.length := by
      by_contra hge
      rw [List.getElem?_eq_none (not_lt.mp hge)] at hn
      exact Option.noConfusion hn
    have hk3 : k < (List.replicate cur.length (0 : Int)).length := by simpa using hk2
    have htk : (cur.set k 0).take (k + 1) = List.replicate (k + 1) 0 := by
      have h := List.set_take_succ_eq cur (List.replicate cur.length 0) k hk3 (by simp)
        (by rw [htake, List.take_replicate, Nat.min_eq_left (Nat.le_of_lt hk2)])
      rw [List.take_replicate, Nat.min_eq_left (Nat.succ_le_of_lt hk2)] at h
      simpa using h
    rw [ih (k + 1) (g.set n (cur.set k 0)) (cur.set k 0)
      (List.getElem?_set_self hnlt)
      htk (by simp only [List.length_set]; omega)]
    rw [List.set_set]
    simp

theorem zeroRows_eq :
    ∀ (n : Nat) (g : Grid), Grid.WF g → n ≤ GRID_HEIGHT →
      zeroRows n g = some (List.replicate n zeroRowValue ++ g.drop n) := by
  intro n
  induction n with
  | zero => intro g _ _; simp [zeroRows]
  | succ n ih =>
    intro g hg hn
    have hnl : n < g.length := by rw [hg.1]; omega
    have hcl : g[n].length = GRID_WIDTH := hg.2 _ (List.getElem_mem _)
    have hz := zeroRow_range' n GRID_WIDTH 0 g g[n] (List.getElem?_eq_getElem hnl)
      (by simp) (by omega)
    rw [← List.range_eq_range', hcl] at hz
    rw [zeroRows, hz]
    simp only [Option.bind_eq_bind, Option.some_bind]
    rw [ih _ (Grid.WF_set g hg n _ (by simp)) (by omega)]
    rw [List.set_eq_take_append_cons_drop, if_pos hnl,
      List.drop_left' (List.length_take_of_le (Nat.le_of_lt hnl))]
    have hrep : List.replicate (n + 1) zeroRowValue = List.replicate n zeroRowValue ++ [zeroRowValue] :=
      List.replicate_succ' n zeroRowValue
    rw [hrep, List.append_assoc]
    rfl

theorem filter_length_add_filter_not {α : Type} (p : α → Bool) (l : List α) :
    (l.filter p).length + (l.filter (fun a => !p a)).length = l.length := by
  induction l with
  | nil => rfl
  | cons a l ih =>
    cases hp : p a <;> simp [List.filter_cons, hp] <;> omega

theorem Grid.WF_of_rows (orig : Grid) (horig : Grid.WF orig) (g : Grid)
    (hlen : g.length = GRID_HEIGHT) (hsub : ∀ r ∈ g, r ∈ orig) : Grid.WF g :=
  ⟨hlen, fun r hr => horig.2 r (hsub r hr)⟩

theorem scanRows_state_WF (orig : Grid) (horig : Grid.WF orig) (n m : Nat)
    (hn : n ≤ GRID_HEIGHT) (hm : m = n + ((orig.drop n).filter isFullRow).length) :
    m ≤ GRID_HEIGHT ∧
      Grid.WF (orig.take m ++ (orig.drop n).filter (fun r => !isFullRow r)) := by
  have hpart := filter_length_add_filter_not isFullRow (orig.drop n)
  have hdl : (orig.drop n).length = GRID_HEIGHT - n := by rw [List.length_drop, horig.1]
  have hm20 : m ≤ GRID_HEIGHT := by omega
  refine ⟨hm20, Grid.WF_of_rows orig horig _ ?_ ?_⟩
  · rw [List.length_append, List.length_take, horig.1, Nat.min_eq_left hm20]
    omega
  · intro r hr
    rcases List.mem_append.mp hr with h | h
    · exact List.mem_of_mem_take h
    · exact List.mem_of_mem_drop (List.mem_of_mem_filter h)

theorem scanRows_eq (orig : Grid) (horig : Grid.WF orig) :
    ∀ (n m : Nat) (g : Grid), n ≤ GRID_HEIGHT →
      m = n + ((orig.drop n).filter isFullRow).length →
      g = orig.take m ++ (orig.drop n).filter (fun r => !isFullRow r) →
      scanRows n g ((m : Int) - 1) =
        some (orig.take (orig.filter isFullRow).length ++
                orig.filter (fun r => !isFullRow r),
              ((orig.filter isFullRow).length : Int) - 1) := by
  intro n
  induction n with
  | zero =>
    intro m g _ hm hg
    simp only [List.drop_zero, zero_add] at hm hg
    subst hm
    simp [scanRows, hg]
  | succ n ih =>
    intro m g hn hm hg
    obtain ⟨hm20, hwf⟩ := scanRows_state_WF orig horig (n + 1) m hn hm
    rw [← hg] at hwf
    have hnl : n < orig.length := by rw [horig.1]; omega
    have hdrop : orig.drop n = orig[n] :: orig.drop (n + 1) := List.drop_eq_getElem_cons hnl
    have hnm : n < m := by omega
    have hgn : g[n]? = some orig[n] := by
      rw [hg, List.getElem?_append_left (by rw [List.length_take]; omega),
        List.getElem?_take_of_lt hnm, List.getElem?_eq_getElem hnl]
    have hrl : orig[n].length = GRID_WIDTH := horig.2 _ (List.getElem_mem _)
    obtain ⟨cnt, hcnt, hiff⟩ := countBlocks_row g n orig[n] hgn hrl
    rw [scanRows, hcnt]
    simp only [Option.bind_eq_bind, Option.some_bind]
    cases hfull : isFullRow orig[n] with
    | false =>
      rw [if_pos (hiff.mpr hfull)]
      have hm1 : ((m : Int) - 1) = ((m - 1 : Nat) : Int) := by omega
      have hset : g.set (m - 1) orig[n] =
          orig.take (m - 1) ++ (orig.drop n).filter (fun r => !isFullRow r) := by
        have htl : (orig.take m).length = m := by
          rw [List.length_take, horig.1]; omega
        rw [hg, List.set_append_left _ _ (by rw [htl]; omega),
          List.set_eq_take_append_cons_drop, if_pos (by rw [htl]; omega),
          List.take_take, Nat.min_eq_left (Nat.sub_le m 1)]
        have hd : List.drop (m - 1 + 1) (List.take m orig) = [] := by
          apply List.drop_eq_nil_of_le
          rw [htl]; omega
        rw [hd, hdrop, List.filter_cons]
        simp [hfull]
      have hcount : m - 1 = n + ((orig.drop n).filter isFullRow).length := by
        rw [hdrop, List.filter_cons]
        simp only [hfull, Bool.false_eq_true, if_false]
        omega
      have hfinal := ih (m - 1) _ (by omega) hcount hset
      by_cases hw : ((m : Int) - 1) ≠ (n : Int)
      · rw [if_pos hw, hm1, copyRow_row g hwf (m - 1) n (by omega) (by omega) orig[n] hgn,
          Option.some_bind]
        exact hfinal
      · rw [if_neg hw, hm1]
        have hmn : m - 1 = n := by omega
        have hgs : g.set (m - 1) orig[n] = g := by
          rw [hmn]
          apply List.ext_getElem?
          intro i
          by_cases hi : n = i
          · subst hi
            rw [List.getElem?_set_self (by rw [hwf.1]; omega), hgn]
          · rw [List.getElem?_set_ne hi]
        rw [hgs] at hfinal
        exact hfinal
    | true =>
      have hnot : ¬ cnt < (GRID_WIDTH : Int) := by
        intro h
        have := hiff.mp h
        rw [hfull] at this
        exact Bool.noConfusion this
      rw [if_neg hnot]
      refine ih m g (by omega) ?_ ?_
      · rw [hdrop, List.filter_cons]
        simp only [hfull, if_true, List.length_cons]
        omega
      · rw [hdrop, List.filter_cons]
        simp only [hfull, Bool.not_true]
        exact hg

theorem clearLines_eq_spec (g : Grid) (hg : Grid.WF g) :
    clearLines g = some (clearLinesSpec g) := by
  have hscan := scanRows_eq g hg GRID_HEIGHT GRID_HEIGHT g (le_refl _)
    (by rw [List.drop_of_length_le (by rw [hg.1])]; rfl)
    (by rw [List.drop_of_length_le (by rw [hg.1]), List.take_of_length_le (by rw [hg.1])]; simp)
  have hcast : ((GRID_HEIGHT : Nat) : Int) - 1 = ((GRID_HEIGHT : Int) - 1) := rfl
  obtain ⟨hk, hwf⟩ := scanRows_state_WF g hg 0 (g.filter isFullRow).length (Nat.zero_le _)
    (by simp)
  simp only [List.drop_zero] at hwf
  unfold clearLines
  rw [hscan]
  simp only [Option.bind_eq_bind, Option.some_bind, sub_add_cancel, Int.toNat_ofNat]
  rw [zeroRows_eq _ _ hwf hk]
  rw [List.drop_left' (by rw [List.length_take, hg.1]; omega)]
  rfl

/-- C2: on every 20x10 board `clearLines` returns the board whose rows, top
to bottom, are `k` all-zero rows followed by the non-full rows of the input in
their original order, `k` being the number of full rows of the input.  With
rows 17 and 19 full, row 18 a non-full pattern `P` and rows 0-16 zero, the
result has row 19 equal to `P` and rows 0-18 zero. -/
theorem clearLines_compacts (g : Grid) (hg : Grid.WF g) :
    clearLines g = some (List.replicate (g.filter isFullRow).length (List.replicate 10 0) ++
      g.filter (fun r => !isFullRow r)) ∧
    (∀ F17 P F19 : List Int, F17.length = 10 → P.length = 10 → F19.length = 10 →
      isFullRow F17 = true → isFullRow P = false → isFullRow F19 = true →
      clearLines (List.replicate 17 (List.replicate 10 0) ++ [F17, P, F19]) =
        some (List.replicate 19 (List.replicate 10 0) ++ [P])) := by
  refine ⟨clearLines_eq_spec g hg, ?_⟩
  intro F17 P F19 h17 hP h19 hf17 hfP hf19
  have hz : isFullRow (List.replicate 10 (0 : Int)) = false := by decide
  have hwf : Grid.WF (List.replicate 17 (List.replicate 10 0) ++ [F17, P, F19]) := by
    refine ⟨by simp, ?_⟩
    intro r hr
    simp only [List.mem_append, List.mem_replicate, List.mem_cons, List.mem_singleton,
      List.not_mem_nil, or_false] at hr
    rcases hr with ⟨_, rfl⟩ | rfl | rfl | rfl
    · simp
    · exact h17
    · exact hP
    · exact h19
  rw [clearLines_eq_spec _ hwf]
  simp [clearLinesSpec, zeroRowValue, List.filter_append, List.filter_cons, List.filter_replicate,
    hz, hf17, hfP, hf19]
  rfl

/-- Witness for C2: only row 19 is full (colour 3), the rest is zero; the
result is the all-zero board. -/
theorem clearLines_compacts_witness :
    Grid.WF (List.replicate 19 (List.replicate 10 0) ++ [List.replicate 10 3]) ∧
    clearLines (List.replicate 19 (List.replicate 10 0) ++ [List.replicate 10 3]) =
      some Grid.empty :=
  ⟨by decide,
   (clearLines_compacts (List.replicate 19 (List.replicate 10 0) ++ [List.replicate 10 3])
      (by decide)).1.trans (by decide)⟩

/-! ## Intents and gravity -/

theorem commitIfValid_spec (st : TetrisGame) (hg : Grid.WF st.grid) (cand : Tetromino) :
    ∃ ok, isValidPosition st.grid cand = some ok ∧
      commitIfValid st cand =
        some { st with currentPiece := if ok = true then cand else st.currentPiece } := by
  obtain ⟨ok, hok⟩ := (isValidPosition_valid_total st.grid hg cand)
  refine ⟨ok, hok, ?_⟩
  cases ok <;> simp [commitIfValid, hok]

/-- C5: for every state with a 20x10 board and every directional intent
(left = `move(-1, 0)`, right = `move(1, 0)`, rotate = `rotate(blocks[1])`):
the validity check returns a Boolean; if the candidate is valid the current
piece becomes exactly the candidate, if it is invalid the current piece is
exactly what it was.  The board, the fall timer and the delay are unchanged in
both cases. -/
theorem handleEvent_commit_or_discard (st : TetrisGame) (hg : Grid.WF st.grid)
    (code : Key) (cand : Tetromino)
    (hc : (code = Key.Left ∧ cand = st.currentPiece.move (-1) 0) ∨
          (code = Key.Right ∧ cand = st.currentPiece.move 1 0) ∨
          (code = Key.Up ∧ cand = st.currentPiece.rotate (PointRef.block 1))) :
    ∃ ok st1, isValidPosition st.grid cand = some ok ∧
      handleEvent st (Event.KeyPressed code) = some st1 ∧
      (ok = true → st1.currentPiece = cand) ∧
      (ok = false → st1.currentPiece = st.currentPiece) ∧
      st1.grid = st.grid ∧ st1.timer = st.timer ∧ st1.currentDelay = st.currentDelay := by
  obtain ⟨ok, hok, hcommit⟩ := commitIfValid_spec st hg cand
  refine ⟨ok, { st with currentPiece := if ok = true then cand else st.currentPiece },
    hok, ?_, ?_, ?_, rfl, rfl, rfl⟩
  · rcases hc with ⟨rfl, rfl⟩ | ⟨rfl, rfl⟩ | ⟨rfl, rfl⟩ <;> exact hcommit
  · intro h; simp [h]
  · intro h; simp [h]

/-- Witness for C5: the O piece at its spawn cells on the empty board; moving
left is rejected, so the piece stays. -/
theorem handleEvent_commit_or_discard_witness :
    ∃ ok st1,
      isValidPosition Grid.empty
        ((⟨⟨0, 1⟩, ⟨1, 1⟩, ⟨0, 2⟩, ⟨1, 2⟩, 2⟩ : Tetromino).move (-1) 0) = some ok ∧
      handleEvent ⟨Grid.empty, ⟨⟨0, 1⟩, ⟨1, 1⟩, ⟨0, 2⟩, ⟨1, 2⟩, 2⟩, 0, INITIAL_DELAY⟩
        (Event.KeyPressed Key.Left) = some st1 ∧
      (ok = false → st1.currentPiece = ⟨⟨0, 1⟩, ⟨1, 1⟩, ⟨0, 2⟩, ⟨1, 2⟩, 2⟩) ∧
      st1.grid = Grid.empty :=
  let ⟨ok, st1, h1, h2, _, h4, h5, _⟩ :=
    handleEvent_commit_or_discard
      ⟨Grid.empty, ⟨⟨0, 1⟩, ⟨1, 1⟩, ⟨0, 2⟩, ⟨1, 2⟩, 2⟩, 0, INITIAL_DELAY⟩ (by decide)
      Key.Left _ (Or.inl ⟨rfl, rfl⟩)
  ⟨ok, st1, h1, h2, h4, h5⟩

theorem update_descend (st : TetrisGame) (d : Draw) (ht : st.timer > st.currentDelay)
    (hv : isValidPosition st.grid (st.currentPiece.move 0 1) = some true) :
    update st d = some { st with timer := 0, currentPiece := st.currentPiece.move 0 1 } := by
  simp [update, ht, hv]

theorem update_lock (st : TetrisGame) (d : Draw) (ht : st.timer > st.currentDelay)
    (hv : isValidPosition st.grid (st.currentPiece.move 0 1) = some false) :
    update st d = lockClearSpawn { st with timer := 0 } d := by
  simp only [update, if_pos ht, hv, lockPiece, createNewPiece, lockClearSpawn,
    Option.bind_eq_bind, Option.some_bind, Option.pure_def, Bool.false_eq_true, if_false]
  cases lockBlocks st.grid st.currentPiece.colorNum st.currentPiece.blocks with
  | none => rfl
  | some g1 =>
    cases hnew : Tetromino.new d.shape d.color with
    | none => cases clearLines g1 <;> simp [hnew]
    | some p => cases clearLines g1 <;> simp [hnew]

theorem lockClearSpawn_defined (st : TetrisGame) (d : Draw) (hg : Grid.WF st.grid)
    (hd : d.InRange)
    (hp : ∀ b ∈ st.currentPiece.blocks, 0 ≤ b.x ∧ b.x < 10 ∧ b.y < 20) :
    ∃ g1 t, lockBlocks st.grid st.currentPiece.colorNum st.currentPiece.blocks = some g1 ∧
      Grid.WF g1 ∧
      Tetromino.new d.shape d.color = some t ∧ idx? catalogCells d.shape = some t.blocks ∧
      t.colorNum = d.color ∧
      lockClearSpawn st d = some { st with grid := clearLinesSpec g1, currentPiece := t } := by
  obtain ⟨g1, hl, hwf, _, _⟩ :=
    lockBlocks_spec_aux st.currentPiece.colorNum st.currentPiece.blocks st.grid hg hp
  obtain ⟨t, _, hnew, hcol, _, _, hcat, _⟩ := Tetromino_new_cells d.shape d.color hd.1 hd.2.1
  refine ⟨g1, t, hl, hwf, hnew, hcat, hcol, ?_⟩
  simp [lockClearSpawn, hl, clearLines_eq_spec g1 hwf, hnew]

/-- C4: in a state with a 20x10 board in which a gravity tick fires
(`timer > currentDelay`), with a spawn draw in range: the validity check of the
piece moved by `(0, +1)` returns a Boolean; if it is `true`, the new current
piece is exactly the moved piece (each cell one row down, same colour) and the
board is unchanged; if it is `false`, `update` equals lock, then line clearing,
then spawn, and when the piece's cells have `0 ≤ x < 10`, `y < 20` the new
board is the compaction of the board after locking and the new current piece
is the decoded catalog shape of the draw with the drawn colour. -/
theorem update_gravity_tick (st : TetrisGame) (d : Draw) (hg : Grid.WF st.grid)
    (hd : d.InRange) (ht : st.timer > st.currentDelay) :
    (∃ ok, isValidPosition st.grid (st.currentPiece.move 0 1) = some ok) ∧
    (st.currentPiece.move 0 1).blocks =
      st.currentPiece.blocks.map (fun b => (⟨b.x, b.y + 1⟩ : Point)) ∧
    (st.currentPiece.move 0 1).colorNum = st.currentPiece.colorNum ∧
    (isValidPosition st.grid (st.currentPiece.move 0 1) = some true →
      update st d = some { st with timer := 0, currentPiece := st.currentPiece.move 0 1 }) ∧
    (isValidPosition st.grid (st.currentPiece.move 0 1) = some false →
      update st d = lockClearSpawn { st with timer := 0 } d ∧
      ((∀ b ∈ st.currentPiece.blocks, 0 ≤ b.x ∧ b.x < 10 ∧ b.y < 20) →
        ∃ g1 t, lockBlocks st.grid st.currentPiece.colorNum st.currentPiece.blocks = some g1 ∧
          Tetromino.new d.shape d.color = some t ∧
          idx? catalogCells d.shape = some t.blocks ∧ t.colorNum = d.color ∧
          clearLines g1 = some (clearLinesSpec g1) ∧
          update st d = some { grid := clearLinesSpec g1, currentPiece := t, timer := 0,
                               currentDelay := st.currentDelay })) := by
  refine ⟨isValidPosition_valid_total st.grid hg _, ?_, ?_, update_descend st d ht, ?_⟩
  · rw [Tetromino.move_eq]; simp [Tetromino.blocks]
  · rw [Tetromino.move_eq]
  · intro hv
    refine ⟨update_lock st d ht hv, ?_⟩
    intro hp
    obtain ⟨g1, t, hl, hwf, hnew, hcat, hcol, hlcs⟩ :=
      lockClearSpawn_defined { st with timer := 0 } d hg hd hp
    exact ⟨g1, t, hl, hnew, hcat, hcol, clearLines_eq_spec g1 hwf,
      (update_lock st d ht hv).trans hlcs⟩

/-- Witness for C4: an O piece resting on the floor of the empty board, with
the timer over the delay; the tick locks it and spawns the drawn I piece. -/
theorem update_gravity_tick_witness :
    update ⟨Grid.empty, ⟨⟨0, 18⟩, ⟨1, 18⟩, ⟨0, 19⟩, ⟨1, 19⟩, 2⟩, 1, INITIAL_DELAY⟩ ⟨0, 5⟩ =
      lockClearSpawn ⟨Grid.empty, ⟨⟨0, 18⟩, ⟨1, 18⟩, ⟨0, 19⟩, ⟨1, 19⟩, 2⟩, 0, INITIAL_DELAY⟩
        ⟨0, 5⟩ :=
  ((update_gravity_tick
      ⟨Grid.empty, ⟨⟨0, 18⟩, ⟨1, 18⟩, ⟨0, 19⟩, ⟨1, 19⟩, 2⟩, 1, INITIAL_DELAY⟩ ⟨0, 5⟩
      (by decide) (by decide) (by norm_num [INITIAL_DELAY])).2.2.2.2 (by decide)).1

theorem lockClearSpawn_frame (st st1 : TetrisGame) (d : Draw)
    (h : lockClearSpawn st d = some st1) :
    st1.timer = st.timer ∧ st1.currentDelay = st.currentDelay := by
  unfold lockClearSpawn at h
  cases h1 : lockBlocks st.grid st.currentPiece.colorNum st.currentPiece.blocks with
  | none => simp [h1] at h
  | some g1 =>
    cases h2 : clearLines g1 with
    | none => simp [h1, h2] at h
    | some g2 =>
      cases h3 : Tetromino.new d.shape d.color with
      | none => simp [h1, h2, h3] at h
      | some p =>
        simp [h1, h2, h3] at h
        subst h
        exact ⟨rfl, rfl⟩

/-- C9: for every state, with the timer an exact number: if
`timer ≤ currentDelay`, `update` leaves the whole state unchanged; if
`timer > currentDelay`, every state `update` produces has timer exactly `0`
(and the same delay), in the descend branch as in the lock branch, and a single
gravity step was applied: either the piece moved down one row on an unchanged
board, or the piece was locked once.  On a 20x10 board, with a draw in range
and the piece's cells at `0 ≤ x < 10`, `y < 20`, `update` does produce a
state. -/
theorem update_timer_reset (st : TetrisGame) (d : Draw) :
    (st.timer ≤ st.currentDelay → update st d = some st) ∧
    (st.timer > st.currentDelay → ∀ st1, update st d = some st1 →
      st1.timer = 0 ∧ st1.currentDelay = st.currentDelay ∧
      ((st1.currentPiece = st.currentPiece.move 0 1 ∧ st1.grid = st.grid) ∨
        lockClearSpawn { st with timer := 0 } d = some st1)) ∧
    (Grid.WF st.grid → d.InRange →
      (∀ b ∈ st.currentPiece.blocks, 0 ≤ b.x ∧ b.x < 10 ∧ b.y < 20) →
      ∃ st1, update st d = some st1) := by
  refine ⟨?_, ?_, ?_⟩
  · intro hle
    simp [update, not_lt.mpr hle]
  · intro ht st1 hu
    cases hv : isValidPosition st.grid (st.currentPiece.move 0 1) with
    | none => simp [update, ht, hv] at hu
    | some ok =>
      cases ok with
      | true =>
        rw [update_descend st d ht hv, Option.some.injEq] at hu
        subst hu
        exact ⟨rfl, rfl, Or.inl ⟨rfl, rfl⟩⟩
      | false =>
        rw [update_lock st d ht hv] at hu
        obtain ⟨h1, h2⟩ := lockClearSpawn_frame _ st1 d hu
        exact ⟨h1, h2, Or.inr hu⟩
  · intro hg hd hp
    by_cases ht : st.timer > st.currentDelay
    · obtain ⟨ok, hv⟩ := isValidPosition_valid_total st.grid hg (st.currentPiece.move 0 1)
      cases ok with
      | true => exact ⟨_, update_descend st d ht hv⟩
      | false =>
        obtain ⟨g1, t, _, _, _, _, _, hlcs⟩ :=
          lockClearSpawn_defined { st with timer := 0 } d hg hd hp
        exact ⟨_, (update_lock st d ht hv).trans hlcs⟩
    · exact ⟨st, by simp [update, ht]⟩

/-- Witness for C9: the timer has overshot the delay by far; the O piece on
the empty board descends one row and the timer is `0`. -/
theorem update_timer_reset_witness :
    ∃ st1, update ⟨Grid.empty, ⟨⟨0, 1⟩, ⟨1, 1⟩, ⟨0, 2⟩, ⟨1, 2⟩, 2⟩, 5, INITIAL_DELAY⟩ ⟨0, 5⟩
        = some st1 ∧ st1.timer = 0 :=
  let ⟨st1, h⟩ := (update_timer_reset
      ⟨Grid.empty, ⟨⟨0, 1⟩, ⟨1, 1⟩, ⟨0, 2⟩, ⟨1, 2⟩, 2⟩, 5, INITIAL_DELAY⟩ ⟨0, 5⟩).2.2
      (by decide) (by decide) (by decide)
  ⟨st1, h, ((update_timer_reset
      ⟨Grid.empty, ⟨⟨0, 1⟩, ⟨1, 1⟩, ⟨0, 2⟩, ⟨1, 2⟩, 2⟩, 5, INITIAL_DELAY⟩ ⟨0, 5⟩).2.1
      (by norm_num [INITIAL_DELAY]) st1 h).1⟩

/-! ## Invariants of the reachable states -/

theorem Grid.write_some (g g1 : Grid) (row col v : Int)
    (h : Grid.write g row col v = some g1) :
    ∃ r, g[row.toNat]? = some r ∧ g1 = g.set row.toNat (r.set col.toNat v) := by
  unfold Grid.write idx? upd? at h
  by_cases hr : 0 ≤ row
  · simp only [if_pos hr, List.get?_eq_getElem?, Option.bind_eq_bind] at h
    cases hrow : g[row.toNat]? with
    | none => simp [hrow] at h
    | some r =>
      refine ⟨r, rfl, ?_⟩
      simp only [hrow, Option.some_bind] at h
      by_cases hc : 0 ≤ col ∧ col.toNat < r.length
      · rw [if_pos hc, Option.some_bind] at h
        by_cases hr2 : 0 ≤ row ∧ row.toNat < g.length
        · rw [if_pos hr2, Option.some.injEq] at h
          exact h.symm
        · rw [if_neg hr2] at h
          exact Option.noConfusion h
      · rw [if_neg hc] at h
        exact Option.noConfusion h
  · simp [hr] at h

theorem Grid.write_preserves (g g1 : Grid) (row col v : Int)
    (h : Grid.write g row col v = some g1) (hg : Grid.WF g) (hc : Grid.CellsInRange g)
    (hv : 0 ≤ v ∧ v ≤ 7) : Grid.WF g1 ∧ Grid.CellsInRange g1 := by
  obtain ⟨r, hrow, rfl⟩ := Grid.write_some g g1 row col v h
  have hrm : r ∈ g := List.getElem?_mem hrow
  refine ⟨Grid.WF_set g hg _ _ (by rw [List.length_set]; exact hg.2 r hrm), ?_⟩
  intro r1 hr1 x hx
  rcases List.mem_or_eq_of_mem_set hr1 with h1 | h1
  · exact hc r1 h1 x hx
  · subst h1
    rcases List.mem_or_eq_of_mem_set hx with h2 | h2
    · exact hc r hrm x h2
    · rw [h2]; exact hv

theorem lockBlocks_preserves (c : Int) (hv : 0 ≤ c ∧ c ≤ 7) (bs : List Point) :
    ∀ g g1 : Grid, lockBlocks g c bs = some g1 → Grid.WF g → Grid.CellsInRange g →
      Grid.WF g1 ∧ Grid.CellsInRange g1 := by
  induction bs with
  | nil =>
    intro g g1 h hg hc
    simp only [lockBlocks, Option.some.injEq] at h
    subst h
    exact ⟨hg, hc⟩
  | cons b rest ih =>
    intro g g1 h hg hc
    unfold lockBlocks at h
    by_cases hy : b.y ≥ 0
    · rw [if_pos hy] at h
      cases hw : Grid.write g b.y b.x c with
      | none => simp [hw] at h
      | some g2 =>
        simp only [hw, Option.bind_eq_bind, Option.some_bind] at h
        obtain ⟨hg2, hc2⟩ := Grid.write_preserves g g2 b.y b.x c hw hg hc hv
        exact ih g2 g1 h hg2 hc2
    · rw [if_neg hy] at h
      exact ih g g1 h hg hc

theorem clearLinesSpec_preserves (g : Grid) (hg : Grid.WF g) (hc : Grid.CellsInRange g) :
    Grid.WF (clearLinesSpec g) ∧ Grid.CellsInRange (clearLinesSpec g) := by
  refine ⟨⟨?_, ?_⟩, ?_⟩
  · unfold clearLinesSpec
    rw [List.length_append, List.length_replicate, filter_length_add_filter_not, hg.1]
  · intro r hr
    rcases List.mem_append.mp hr with h | h
    · rw [(List.mem_replicate.mp h).2]; rfl
    · exact hg.2 r (List.mem_of_mem_filter h)
  · intro r hr x hx
    rcases List.mem_append.mp hr with h | h
    · rw [(List.mem_replicate.mp h).2] at hx
      rw [(List.mem_replicate.mp hx).2]
      decide
    · exact hc r (List.mem_of_mem_filter h) x hx

theorem lockClearSpawn_some (st st1 : TetrisGame) (d : Draw)
    (h : lockClearSpawn st d = some st1) :
    ∃ g1 g2 p, lockBlocks st.grid st.currentPiece.colorNum st.currentPiece.blocks = some g1 ∧
      clearLines g1 = some g2 ∧ Tetromino.new d.shape d.color = some p ∧
      st1 = { st with grid := g2, currentPiece := p } := by
  unfold lockClearSpawn at h
  cases h1 : lockBlocks st.grid st.currentPiece.colorNum st.currentPiece.blocks with
  | none => simp [h1] at h
  | some g1 =>
    cases h2 : clearLines g1 with
    | none => simp [h1, h2] at h
    | some g2 =>
      cases h3 : Tetromino.new d.shape d.color with
      | none => simp [h1, h2, h3] at h
      | some p =>
        simp [h1, h2, h3] at h
        exact ⟨g1, g2, p, rfl, h2, rfl, h.symm⟩

theorem commitIfValid_some (st st1 : TetrisGame) (cand : Tetromino)
    (h : commitIfValid st cand = some st1) :
    st1 = st ∨ st1 = { st with currentPiece := cand } := by
  unfold commitIfValid at h
  cases hv : isValidPosition st.grid cand with
  | none => simp [hv] at h
  | some ok =>
    cases ok with
    | true => right; simp [hv] at h; exact h.symm
    | false => left; simp [hv] at h; exact h.symm

theorem handleEvent_frame (st st1 : TetrisGame) (ev : Event)
    (h : handleEvent st ev = some st1) :
    st1.grid = st.grid ∧ st1.timer = st.timer ∧ st1.currentDelay = st.currentDelay ∧
      st1.currentPiece.colorNum = st.currentPiece.colorNum := by
  have hcommit : ∀ cand : Tetromino, cand.colorNum = st.currentPiece.colorNum →
      commitIfValid st cand = some st1 →
      st1.grid = st.grid ∧ st1.timer = st.timer ∧ st1.currentDelay = st.currentDelay ∧
        st1.currentPiece.colorNum = st.currentPiece.colorNum := by
    intro cand hcol hc
    rcases commitIfValid_some st st1 cand hc with rfl | rfl
    · exact ⟨rfl, rfl, rfl, rfl⟩
    · exact ⟨rfl, rfl, rfl, hcol⟩
  cases ev with
  | Closed => simp [handleEvent] at h; subst h; exact ⟨rfl, rfl, rfl, rfl⟩
  | Other => simp [handleEvent] at h; subst h; exact ⟨rfl, rfl, rfl, rfl⟩
  | KeyPressed code =>
    cases code with
    | Up => exact hcommit _ (by rw [Tetromino.rotate_block1]) h
    | Left => exact hcommit _ (by rw [Tetromino.move_eq]) h
    | Right => exact hcommit _ (by rw [Tetromino.move_eq]) h
    | Other => simp [handleEvent] at h; subst h; exact ⟨rfl, rfl, rfl, rfl⟩

theorem update_preserves (st st1 : TetrisGame) (d : Draw) (hd : d.InRange)
    (h : update st d = some st1) (hg : Grid.WF st.grid) (hc : Grid.CellsInRange st.grid)
    (hcol : 1 ≤ st.currentPiece.colorNum ∧ st.currentPiece.colorNum ≤ 7) :
    Grid.WF st1.grid ∧ Grid.CellsInRange st1.grid ∧
      1 ≤ st1.currentPiece.colorNum ∧ st1.currentPiece.colorNum ≤ 7 := by
  by_cases ht : st.timer > st.currentDelay
  · cases hv : isValidPosition st.grid (st.currentPiece.move 0 1) with
    | none => simp [update, ht, hv] at h
    | some ok =>
      cases ok with
      | true =>
        rw [update_descend st d ht hv, Option.some.injEq] at h
        subst h
        refine ⟨hg, hc, ?_⟩
        show 1 ≤ (st.currentPiece.move 0 1).colorNum ∧ (st.currentPiece.move 0 1).colorNum ≤ 7
        rw [Tetromino.move_eq]
        exact hcol
      | false =>
        rw [update_lock st d ht hv] at h
        obtain ⟨g1, g2, p, hl, hcl, hnew, rfl⟩ := lockClearSpawn_some _ st1 d h
        obtain ⟨hg1, hc1⟩ := lockBlocks_preserves st.currentPiece.colorNum
          ⟨by omega, hcol.2⟩ st.currentPiece.blocks st.grid g1 hl hg hc
        rw [clearLines_eq_spec g1 hg1, Option.some.injEq] at hcl
        subst hcl
        obtain ⟨hg2, hc2⟩ := clearLinesSpec_preserves g1 hg1 hc1
        obtain ⟨t, _, hnew2, hcol2, _⟩ := Tetromino_new_cells d.shape d.color hd.1 hd.2.1
        rw [hnew2, Option.some.injEq] at hnew
        subst hnew
        refine ⟨hg2, hc2, ?_⟩
        show 1 ≤ t.colorNum ∧ t.colorNum ≤ 7
        rw [hcol2]
        exact hd.2.2
  · have : update st d = some st := by simp [update, ht]
    rw [this, Option.some.injEq] at h
    subst h
    exact ⟨hg, hc, hcol⟩

/-- C10: in every state reachable from the constructed state (all-zero board,
first piece spawned) by clock advances, input events, delay sampling and
`update` calls whose spawn draws have a shape index in `0..6` and a colour in
`1..7`, the board has 20 rows of 10 cells, every board cell is in `0..7`, and
the colour of the current piece is in `1..7`. -/
theorem reachable_board_and_colour_ranges (st : TetrisGame) (hr : Reachable st) :
    st.grid.length = 20 ∧ (∀ r ∈ st.grid, r.length = 10) ∧
    (∀ r ∈ st.grid, ∀ v ∈ r, 0 ≤ v ∧ v ≤ 7) ∧
    1 ≤ st.currentPiece.colorNum ∧ st.currentPiece.colorNum ≤ 7 := by
  have key : Grid.WF st.grid ∧ Grid.CellsInRange st.grid ∧
      1 ≤ st.currentPiece.colorNum ∧ st.currentPiece.colorNum ≤ 7 := by
    induction hr with
    | init d hd st h =>
      obtain ⟨t, _, hnew, hcol, _⟩ := Tetromino_new_cells d.shape d.color hd.1 hd.2.1
      simp only [TetrisGame.init, hnew, Option.bind_eq_bind, Option.some_bind, Option.pure_def,
        Option.some.injEq] at h
      subst h
      refine ⟨(by decide : Grid.WF Grid.empty),
        (by decide : Grid.CellsInRange Grid.empty), ?_⟩
      show 1 ≤ t.colorNum ∧ t.colorNum ≤ 7
      rw [hcol]
      exact hd.2.2
    | step st st1 _ hs ih =>
      obtain ⟨hg, hc, hcol⟩ := ih
      cases hs with
      | elapse deltaTime h => exact ⟨hg, hc, hcol⟩
      | event _ ev h =>
        obtain ⟨h1, _, _, h4⟩ := handleEvent_frame st st1 ev h
        rw [h1, h4]
        exact ⟨hg, hc, hcol⟩
      | sample downPressed => exact ⟨hg, hc, hcol⟩
      | update _ d hd h => exact update_preserves st st1 d hd h hg hc hcol
  exact ⟨key.1.1, key.1.2, key.2.1, key.2.2⟩

/-- Witness for C10: the state after construction with the draw (O, colour 2),
one `Right` key press and a clock advance of one second. -/
theorem reachable_board_and_colour_ranges_witness :
    Reachable ⟨Grid.empty, ⟨⟨1, 1⟩, ⟨2, 1⟩, ⟨1, 2⟩, ⟨2, 2⟩, 2⟩, 0 + 1, INITIAL_DELAY⟩ ∧
    (⟨Grid.empty, ⟨⟨1, 1⟩, ⟨2, 1⟩, ⟨1, 2⟩, ⟨2, 2⟩, 2⟩, 0 + 1, INITIAL_DELAY⟩ :
      TetrisGame).grid.length = 20 :=
  have h : Reachable ⟨Grid.empty, ⟨⟨1, 1⟩, ⟨2, 1⟩, ⟨1, 2⟩, ⟨2, 2⟩, 2⟩, 0 + 1, INITIAL_DELAY⟩ :=
    Reachable.step _ _
      (Reachable.step ⟨Grid.empty, ⟨⟨0, 1⟩, ⟨1, 1⟩, ⟨0, 2⟩, ⟨1, 2⟩, 2⟩, 0, INITIAL_DELAY⟩ _
        (Reachable.init ⟨6, 2⟩ (by decide) _ rfl)
        (Step.event _ ⟨Grid.empty, ⟨⟨1, 1⟩, ⟨2, 1⟩, ⟨1, 2⟩, ⟨2, 2⟩, 2⟩, 0, INITIAL_DELAY⟩
          (Event.KeyPressed Key.Right) rfl))
      (Step.elapse _ 1 (by norm_num))
  ⟨h, (reachable_board_and_colour_ranges _ h).1⟩

/-! ## Delay sampling -/

theorem handleEvents_no_key (st : TetrisGame) (events : List Event)
    (hev : ∀ e ∈ events, ∀ k, e ≠ Event.KeyPressed k) :
    handleEvents st events = some st := by
  induction events with
  | nil => rfl
  | cons e rest ih =>
    have he := hev e (List.mem_cons_self _ _)
    have hrest := ih (fun e1 h1 => hev e1 (List.mem_cons_of_mem _ h1))
    cases e with
    | Closed => simpa [handleEvents, handleEvent] using hrest
    | Other => simpa [handleEvents, handleEvent] using hrest
    | KeyPressed code => exact absurd rfl (he code)

/-- C13: for every state, `handleInput` with no key-press event pending sets
`currentDelay` to the fast constant (`0.05`) when the Down key is held and to
the normal constant (`0.3`) when it is not, whatever the previous delay was,
and leaves the board, the current piece and the fall timer unchanged. -/
theorem handleInput_samples_delay (st : TetrisGame) (events : List Event)
    (downPressed : Bool) (hev : ∀ e ∈ events, ∀ k, e ≠ Event.KeyPressed k) :
    ∃ st1, handleInput st events downPressed = some st1 ∧
      (downPressed = true → st1.currentDelay = 5 / 100) ∧
      (downPressed = false → st1.currentDelay = 3 / 10) ∧
      st1.grid = st.grid ∧ st1.currentPiece = st.currentPiece ∧ st1.timer = st.timer := by
  refine ⟨{ st with currentDelay := if downPressed then FAST_DELAY else INITIAL_DELAY },
    ?_, ?_, ?_, rfl, rfl, rfl⟩
  · simp [handleInput, handleEvents_no_key st events hev]
  · intro h; simp only [h, if_true, FAST_DELAY]; norm_num
  · intro h; simp [h, INITIAL_DELAY]

/-- Witness for C13: the Down key is held while the previous delay is the
normal one; a window event that is no key press is pending. -/
theorem handleInput_samples_delay_witness :
    ∃ st1, handleInput ⟨Grid.empty, ⟨⟨0, 1⟩, ⟨1, 1⟩, ⟨0, 2⟩, ⟨1, 2⟩, 2⟩, 0, INITIAL_DELAY⟩
        [Event.Other] true = some st1 ∧
      st1.currentDelay = 5 / 100 ∧ st1.grid = Grid.empty :=
  let ⟨st1, h1, h2, _, h4, _, _⟩ :=
    handleInput_samples_delay
      ⟨Grid.empty, ⟨⟨0, 1⟩, ⟨1, 1⟩, ⟨0, 2⟩, ⟨1, 2⟩, 2⟩, 0, INITIAL_DELAY⟩ [Event.Other] true
      (by simp)
  ⟨st1, h1, h2 rfl, h4⟩

/-! ## Further properties of line clearing -/

theorem isFullRow_eq_false_iff (r : List Int) :
    isFullRow r = false ↔ ∃ v ∈ r, v = 0 := by
  simp [isFullRow]

/-- C14: on every 20x10 board the board returned by `clearLines` contains no
full row: every row of the result has a zero cell.  When all 20 input rows are
full the result is the all-zero board. -/
theorem clearLines_no_full_row (g : Grid) (hg : Grid.WF g) :
    ∃ g1, clearLines g = some g1 ∧
      (∀ r ∈ g1, ∃ v ∈ r, v = 0) ∧ (∀ r ∈ g1, isFullRow r = false) ∧
      ((∀ r ∈ g, isFullRow r = true) → g1 = Grid.empty) := by
  have hrows : ∀ r ∈ clearLinesSpec g, isFullRow r = false := by
    intro r hr
    rcases List.mem_append.mp hr with h | h
    · rw [(List.mem_replicate.mp h).2]; decide
    · simpa using (List.mem_filter.mp h).2
  refine ⟨clearLinesSpec g, clearLines_eq_spec g hg, ?_, hrows, ?_⟩
  · intro r hr
    exact (isFullRow_eq_false_iff r).mp (hrows r hr)
  · intro hall
    have h1 : g.filter isFullRow = g := List.filter_eq_self.mpr hall
    have h2 : g.filter (fun r => !isFullRow r) = [] := by
      rw [List.filter_eq_nil_iff]
      intro r hr
      simp [hall r hr]
    unfold clearLinesSpec
    rw [h1, h2, hg.1, List.append_nil]
    rfl

/-- Witness for C14: all 20 rows are full. -/
theorem clearLines_no_full_row_witness :
    ∃ g1, clearLines (List.replicate 20 (List.replicate 10 4)) = some g1 ∧
      (∀ r ∈ g1, ∃ v ∈ r, v = 0) ∧ g1 = Grid.empty :=
  let ⟨g1, h1, h2, _, h4⟩ :=
    clearLines_no_full_row (List.replicate 20 (List.replicate 10 4)) (by decide)
  ⟨g1, h1, h2, h4 (by decide)⟩

/-- C17: on a 20x10 board without a full row (every row has a zero cell)
`clearLines` returns the board unchanged. -/
theorem clearLines_identity_without_full_row (g : Grid) (hg : Grid.WF g)
    (hno : ∀ r ∈ g, ∃ v ∈ r, v = 0) : clearLines g = some g := by
  have hnf : ∀ r ∈ g, isFullRow r = false :=
    fun r hr => (isFullRow_eq_false_iff r).mpr (hno r hr)
  have h1 : g.filter isFullRow = [] := by
    rw [List.filter_eq_nil_iff]
    intro r hr
    simp [hnf r hr]
  have h2 : g.filter (fun r => !isFullRow r) = g := by
    rw [List.filter_eq_self]
    intro r hr
    simp [hnf r hr]
  rw [clearLines_eq_spec g hg]
  unfold clearLinesSpec
  rw [h1, h2]
  rfl

/-- Witness for C17: a board with two partly filled bottom rows. -/
theorem clearLines_identity_without_full_row_witness :
    clearLines (List.replicate 18 (List.replicate 10 0) ++
        [[1, 1, 0, 2, 2, 2, 2, 3, 3, 3], [4, 4, 4, 4, 0, 5, 5, 5, 5, 6]]) =
      some (List.replicate 18 (List.replicate 10 0) ++
        [[1, 1, 0, 2, 2, 2, 2, 3, 3, 3], [4, 4, 4, 4, 0, 5, 5, 5, 5, 6]]) :=
  clearLines_identity_without_full_row _ (by decide) (by decide)

/-! ## Locking a valid piece, and the reads of the validity checker -/

theorem Grid.read_eq_none_iff (g : Grid) (hg : Grid.WF g) (row col : Int) :
    Grid.read g row col = none ↔ ¬ (0 ≤ row ∧ row ≤ 19 ∧ 0 ≤ col ∧ col ≤ 9) := by
  constructor
  · intro h hin
    obtain ⟨v, hv⟩ := Grid.read_some_of_WF g hg row col hin.1 (by simp; omega) hin.2.2.1
      (by simp; omega)
    rw [hv] at h
    exact Option.noConfusion h
  · intro hout
    by_cases hneg : row < 0 ∨ col < 0
    · exact Grid.read_eq_none_of_neg g row col hneg
    · simp only [not_or, not_lt] at hneg
      rw [Grid.read_eq_getElem? g row col hneg.1 hneg.2]
      by_cases hr : row ≤ 19
      · have h1 : row.toNat < g.length := by rw [hg.1]; simp only [GRID_HEIGHT]; omega
        have hrl : g[row.toNat].length = GRID_WIDTH := hg.2 _ (List.getElem_mem _)
        rw [List.getElem?_eq_getElem h1, Option.some_bind]
        apply List.getElem?_eq_none
        rw [hrl]; simp only [GRID_WIDTH]; omega
      · have h1 : g.length ≤ row.toNat := by rw [hg.1]; simp only [GRID_HEIGHT]; omega
        rw [List.getElem?_eq_none h1]
        rfl

/-- C16: on a 20x10 board, locking a piece that is valid against the board
never overwrites an occupied cell: every cell that was non-zero keeps its
value, and a cell that changes was empty and lies under a piece cell with
`y ≥ 0`.  `lockPiece` installs this board. -/
theorem lockPiece_keeps_occupied_cells (st : TetrisGame) (d : Draw)
    (hg : Grid.WF st.grid) (hd : d.InRange)
    (hv : isValidPosition st.grid st.currentPiece = some true) :
    ∃ g1 st1, lockBlocks st.grid st.currentPiece.colorNum st.currentPiece.blocks = some g1 ∧
      lockPiece st d = some st1 ∧ st1.grid = g1 ∧
      (∀ row col v, Grid.read st.grid row col = some v → v ≠ 0 →
        Grid.read g1 row col = some v) ∧
      (∀ row col, Grid.read g1 row col ≠ Grid.read st.grid row col →
        Grid.read st.grid row col = some 0 ∧
        ∃ b ∈ st.currentPiece.blocks, 0 ≤ b.y ∧ b.y = row ∧ b.x = col) := by
  have hcells : ∀ b ∈ st.currentPiece.blocks, 0 ≤ b.x ∧ b.x < 10 ∧ b.y < 20 ∧
      (b.y < 0 ∨ Grid.read st.grid b.y b.x = some 0) := by
    have h := isValidBlocks_eq st.grid hg st.currentPiece.blocks
    unfold isValidPosition at hv
    rw [h, Option.some.injEq, decide_eq_true_eq] at hv
    exact hv
  have hempty : ∀ b ∈ st.currentPiece.blocks, 0 ≤ b.y →
      Grid.read st.grid b.y b.x = some 0 := by
    intro b hb hy
    rcases (hcells b hb).2.2.2 with h | h
    · omega
    · exact h
  obtain ⟨g1, hl, _, _, hframe⟩ :=
    lockBlocks_spec_aux st.currentPiece.colorNum st.currentPiece.blocks st.grid hg
      (fun b hb => ⟨(hcells b hb).1, (hcells b hb).2.1, (hcells b hb).2.2.1⟩)
  obtain ⟨t, _, hnew, _⟩ := Tetromino_new_cells d.shape d.color hd.1 hd.2.1
  refine ⟨g1, { st with grid := g1, currentPiece := t }, hl, ?_, rfl, ?_, ?_⟩
  · simp [lockPiece, hl, createNewPiece, hnew]
  · intro row col v hrd hv0
    rw [hframe row col ?_]
    · exact hrd
    · intro b hb hy hpos
      have h0 := hempty b hb hy
      rw [hpos.1, hpos.2, hrd, Option.some.injEq] at h0
      exact hv0 h0
  · intro row col hne
    have hex : ∃ b ∈ st.currentPiece.blocks, 0 ≤ b.y ∧ b.y = row ∧ b.x = col := by
      by_contra hno
      apply hne
      apply hframe
      intro b hb hy hpos
      exact hno ⟨b, hb, hy, hpos.1, hpos.2⟩
    obtain ⟨b, hb, hy, hrow, hcol⟩ := hex
    refine ⟨?_, b, hb, hy, hrow, hcol⟩
    rw [← hrow, ← hcol]
    exact hempty b hb hy

/-- Witness for C16: an L piece resting on an occupied bottom row. -/
theorem lockPiece_keeps_occupied_cells_witness :
    ∃ g1 st1,
      lockBlocks (List.replicate 19 (List.replicate 10 0) ++ [[7, 7, 7, 0, 0, 0, 0, 0, 0, 0]]) 3
        [⟨0, 16⟩, ⟨1, 16⟩, ⟨1, 17⟩, ⟨1, 18⟩] = some g1 ∧
      lockPiece ⟨List.replicate 19 (List.replicate 10 0) ++ [[7, 7, 7, 0, 0, 0, 0, 0, 0, 0]],
          ⟨⟨0, 16⟩, ⟨1, 16⟩, ⟨1, 17⟩, ⟨1, 18⟩, 3⟩, 0, INITIAL_DELAY⟩ ⟨0, 1⟩ = some st1 ∧
      st1.grid = g1 ∧ Grid.read g1 19 1 = some 7 :=
  let ⟨g1, st1, h1, h2, h3, h4, _⟩ :=
    lockPiece_keeps_occupied_cells
      ⟨List.replicate 19 (List.replicate 10 0) ++ [[7, 7, 7, 0, 0, 0, 0, 0, 0, 0]],
        ⟨⟨0, 16⟩, ⟨1, 16⟩, ⟨1, 17⟩, ⟨1, 18⟩, 3⟩, 0, INITIAL_DELAY⟩ ⟨0, 1⟩
      (by decide) (by decide) (by decide)
  ⟨g1, st1, h1, h2, h3, h4 19 1 7 (by decide) (by decide)⟩

theorem isValidBlocksReads_in_range (g : Grid) (bs : List Point) :
    ∀ yx ∈ isValidBlocksReads g bs, 0 ≤ yx.1 ∧ yx.1 ≤ 19 ∧ 0 ≤ yx.2 ∧ yx.2 ≤ 9 := by
  induction bs with
  | nil => intro yx h; simp [isValidBlocksReads] at h
  | cons b rest ih =>
    intro yx h
    unfold isValidBlocksReads at h
    by_cases hb : b.x < 0 ∨ b.x ≥ GRID_WIDTH ∨ b.y ≥ GRID_HEIGHT
    · rw [if_pos hb] at h
      exact absurd h (List.not_mem_nil _)
    · rw [if_neg hb] at h
      simp only [GRID_WIDTH, GRID_HEIGHT, Nat.cast_ofNat, not_or, not_lt, ge_iff_le,
        not_le] at hb
      by_cases hy : b.y ≥ 0
      · rw [if_pos hy] at h
        rcases List.mem_cons.mp h with h1 | h1
        · rw [h1]
          exact ⟨hy, by omega, hb.1, by omega⟩
        · cases hrd : Grid.read g b.y b.x with
          | none => rw [hrd] at h1; exact absurd h1 (List.not_mem_nil _)
          | some v =>
            rw [hrd] at h1
            by_cases hv : v ≠ 0
            · simp only [if_pos hv] at h1
              exact absurd h1 (List.not_mem_nil _)
            · simp only [if_neg hv] at h1
              exact ih yx h1
      · rw [if_neg hy] at h
        exact ih yx h

theorem isValidBlocks_eq_none_iff (g : Grid) (bs : List Point) :
    isValidBlocks g bs = none ↔
      ∃ yx ∈ isValidBlocksReads g bs, Grid.read g yx.1 yx.2 = none := by
  induction bs with
  | nil => simp [isValidBlocks, isValidBlocksReads]
  | cons b rest ih =>
    unfold isValidBlocks isValidBlocksReads
    by_cases hb : b.x < 0 ∨ b.x ≥ GRID_WIDTH ∨ b.y ≥ GRID_HEIGHT
    · rw [if_pos hb, if_pos hb]
      simp
    · rw [if_neg hb, if_neg hb]
      by_cases hy : b.y ≥ 0
      · rw [if_pos hy, if_pos hy]
        cases hrd : Grid.read g b.y b.x with
        | none => simp [hrd]
        | some v =>
          by_cases hv : v ≠ 0
          · simp [hrd, hv]
          · simp only [ne_eq, Decidable.not_not] at hv
            subst hv
            simp [hrd, ih]
      · rw [if_neg hy, if_neg hy]
        exact ih

/-- C19: for every board and every piece with arbitrary integer cell
coordinates, every index `(y, x)` at which `isValidPosition` reads the grid
has `0 ≤ y ≤ 19` and `0 ≤ x ≤ 9`; the checker fails only if one of these
reads does.  On a 20x10 board a checked read fails exactly outside these
bounds, and `isValidPosition` never fails: the out-of-range branch of the
indexing is not reached. -/
theorem isValidPosition_reads_in_range (g : Grid) (p : Tetromino) :
    (∀ yx ∈ isValidBlocksReads g p.blocks, 0 ≤ yx.1 ∧ yx.1 ≤ 19 ∧ 0 ≤ yx.2 ∧ yx.2 ≤ 9) ∧
    (isValidPosition g p = none ↔
      ∃ yx ∈ isValidBlocksReads g p.blocks, Grid.read g yx.1 yx.2 = none) ∧
    (Grid.WF g →
      (∃ r, isValidPosition g p = some r) ∧
      (∀ yx ∈ isValidBlocksReads g p.blocks, ∃ v, Grid.read g yx.1 yx.2 = some v) ∧
      (∀ row col, Grid.read g row col = none ↔ ¬ (0 ≤ row ∧ row ≤ 19 ∧ 0 ≤ col ∧ col ≤ 9))) := by
  refine ⟨isValidBlocksReads_in_range g p.blocks, isValidBlocks_eq_none_iff g p.blocks, ?_⟩
  intro hg
  refine ⟨isValidPosition_valid_total g hg p, ?_, Grid.read_eq_none_iff g hg⟩
  intro yx hyx
  obtain ⟨h1, h2, h3, h4⟩ := isValidBlocksReads_in_range g p.blocks yx hyx
  exact Grid.read_some_of_WF g hg yx.1 yx.2 h1 (by simp; omega) h3 (by simp; omega)

/-- Witness for C19: a piece with cells left of, right of, above and below
the empty board; no read happens at the first cell and the check answers
`false`. -/
theorem isValidPosition_reads_in_range_witness :
    Grid.WF Grid.empty ∧
    isValidBlocksReads Grid.empty [⟨3, -2⟩, ⟨4, 5⟩, ⟨-1, 0⟩, ⟨12, 25⟩] = [(5, 4)] ∧
    ∃ r, isValidPosition Grid.empty ⟨⟨3, -2⟩, ⟨4, 5⟩, ⟨-1, 0⟩, ⟨12, 25⟩, 1⟩ = some r :=
  ⟨by decide, by decide,
   ((isValidPosition_reads_in_range Grid.empty ⟨⟨3, -2⟩, ⟨4, 5⟩, ⟨-1, 0⟩, ⟨12, 25⟩, 1⟩).2.2
      (by decide)).1⟩

/-! ## Cursors and indices of line clearing -/

theorem scanRows_eq_erase_cursors :
    ∀ (n : Nat) (g : Grid) (w : Int),
      scanRows n g w = (scanRowsCursors n g w).map (fun r => r.2) := by
  intro n
  induction n with
  | zero => intro g w; rfl
  | succ n ih =>
    intro g w
    unfold scanRows scanRowsCursors
    cases countBlocks g n (List.range GRID_WIDTH) 0 with
    | none => rfl
    | some cnt =>
      simp only [Option.bind_eq_bind, Option.some_bind]
      by_cases hc : cnt < (GRID_WIDTH : Int)
      · rw [if_pos hc, if_pos hc]
        by_cases hw : w ≠ (n : Int)
        · rw [if_pos hw, if_pos hw]
          cases copyRow g w n (List.range GRID_WIDTH) with
          | none => rfl
          | some g1 =>
            simp only [Option.some_bind]
            rw [ih g1 (w - 1)]
            cases scanRowsCursors n g1 (w - 1) with
            | none => rfl
            | some r => rfl
        · rw [if_neg hw, if_neg hw, ih g (w - 1)]
          cases scanRowsCursors n g (w - 1) with
          | none => rfl
          | some r => rfl
      · rw [if_neg hc, if_neg hc]
        exact ih g w

theorem scanRowsCursors_bounds :
    ∀ (n : Nat) (g : Grid) (w : Int) (cursors : List (Int × Int)) (g1 : Grid) (w1 : Int),
      scanRowsCursors n g w = some (cursors, g1, w1) → (n : Int) - 1 ≤ w → w ≤ 19 →
      (∀ rw ∈ cursors, 0 ≤ rw.1 ∧ rw.1 ≤ rw.2 ∧ rw.2 ≤ 19) ∧ -1 ≤ w1 ∧ w1 ≤ 19 := by
  intro n
  induction n with
  | zero =>
    intro g w cursors g1 w1 h hlo hhi
    simp only [scanRowsCursors, Option.some.injEq, Prod.mk.injEq] at h
    obtain ⟨rfl, _, rfl⟩ := h
    exact ⟨by simp, by simpa using hlo, hhi⟩
  | succ n ih =>
    intro g w cursors g1 w1 h hlo hhi
    push_cast at hlo
    have hrec : ∀ g2 : Grid, ∀ r, scanRowsCursors n g2 (w - 1) = some r →
        some (((n : Int), w) :: r.1, r.2.1, r.2.2) = some (cursors, g1, w1) →
        (∀ rw ∈ cursors, 0 ≤ rw.1 ∧ rw.1 ≤ rw.2 ∧ rw.2 ≤ 19) ∧ -1 ≤ w1 ∧ w1 ≤ 19 := by
      intro g2 r hr heq
      obtain ⟨c2, g3, w3⟩ := r
      simp only [Option.some.injEq, Prod.mk.injEq] at heq
      obtain ⟨rfl, rfl, rfl⟩ := heq
      obtain ⟨hlog, hw⟩ := ih g2 (w - 1) c2 g3 w3 hr (by omega) (by omega)
      refine ⟨?_, hw⟩
      intro rw hrw
      rcases List.mem_cons.mp hrw with h1 | h1
      · rw [h1]
        exact ⟨by simp, by simp only; omega, hhi⟩
      · exact hlog rw h1
    unfold scanRowsCursors at h
    cases hcnt : countBlocks g n (List.range GRID_WIDTH) 0 with
    | none => simp [hcnt] at h
    | some cnt =>
      simp only [hcnt, Option.bind_eq_bind, Option.some_bind] at h
      by_cases hc : cnt < (GRID_WIDTH : Int)
      · rw [if_pos hc] at h
        by_cases hw : w ≠ (n : Int)
        · rw [if_pos hw] at h
          cases hcopy : copyRow g w n (List.range GRID_WIDTH) with
          | none => simp [hcopy] at h
          | some g2 =>
            simp only [hcopy, Option.some_bind] at h
            cases hr : scanRowsCursors n g2 (w - 1) with
            | none => simp [hr] at h
            | some r =>
              rw [hr] at h
              exact hrec g2 r hr h
        · rw [if_neg hw] at h
          cases hr : scanRowsCursors n g (w - 1) with
          | none => simp [hr] at h
          | some r =>
            rw [hr] at h
            exact hrec g r hr h
      · rw [if_neg hc] at h
        exact ih g w cursors g1 w1 h (by omega) hhi

theorem Grid.write_some_bounds (g g1 : Grid) (row col v : Int)
    (h : Grid.write g row col v = some g1) :
    0 ≤ row ∧ row.toNat < g.length ∧ 0 ≤ col ∧
      ∃ r, g[row.toNat]? = some r ∧ col.toNat < r.length := by
  unfold Grid.write idx? upd? at h
  by_cases hr : 0 ≤ row
  · simp only [if_pos hr, List.get?_eq_getElem?, Option.bind_eq_bind] at h
    cases hrow : g[row.toNat]? with
    | none => simp [hrow] at h
    | some r =>
      simp only [hrow, Option.some_bind] at h
      by_cases hc : 0 ≤ col ∧ col.toNat < r.length
      · rw [if_pos hc, Option.some_bind] at h
        by_cases hr2 : 0 ≤ row ∧ row.toNat < g.length
        · exact ⟨hr, hr2.2, hc.1, r, rfl, hc.2⟩
        · rw [if_neg hr2] at h
          exact Option.noConfusion h
      · rw [if_neg hc] at h
        exact Option.noConfusion h
  · simp [hr] at h

theorem Grid.write_eq_none_iff (g : Grid) (hg : Grid.WF g) (row col v : Int) :
    Grid.write g row col v = none ↔ ¬ (0 ≤ row ∧ row ≤ 19 ∧ 0 ≤ col ∧ col ≤ 9) := by
  constructor
  · intro h hin
    obtain ⟨g1, hw, _⟩ := Grid.write_spec g hg row col v hin.1 (by simp; omega) hin.2.2.1
      (by simp; omega)
    rw [hw] at h
    exact Option.noConfusion h
  · intro hout
    cases hw : Grid.write g row col v with
    | none => rfl
    | some g1 =>
      exfalso
      apply hout
      obtain ⟨h1, h2, h3, r, hr, hc⟩ := Grid.write_some_bounds g g1 row col v hw
      have hrl : r.length = GRID_WIDTH := hg.2 r (List.getElem?_mem hr)
      rw [hg.1] at h2
      rw [hrl] at hc
      simp only [GRID_HEIGHT, GRID_WIDTH] at h2 hc
      exact ⟨h1, by omega, h3, by omega⟩

/-- C18: on every 20x10 board the scan of `clearLines` runs to its end, and
at every non-full row, where the row is copied to the write cursor, the cursors
satisfy `0 ≤ readRow ≤ writeRow ≤ 19`; at the end of the scan
`-1 ≤ writeRow ≤ 19`.  `clearLines` as a whole returns a board, so none of its
checked reads and writes fails, and on a 20x10 board a checked access fails
exactly when its row index is outside `0..19` or its column index outside
`0..9`. -/
theorem clearLines_cursors_and_indices (g : Grid) (hg : Grid.WF g) :
    (∃ cursors g1 w, scanRowsCursors GRID_HEIGHT g (GRID_HEIGHT - 1) = some (cursors, g1, w) ∧
      scanRows GRID_HEIGHT g (GRID_HEIGHT - 1) = some (g1, w) ∧
      (∀ rw ∈ cursors, 0 ≤ rw.1 ∧ rw.1 ≤ rw.2 ∧ rw.2 ≤ 19) ∧ -1 ≤ w ∧ w ≤ 19 ∧
      ∃ g2, zeroRows (w + 1).toNat g1 = some g2 ∧ clearLines g = some g2) ∧
    (∀ (b : Grid), Grid.WF b → ∀ row col v,
      (Grid.read b row col = none ↔ ¬ (0 ≤ row ∧ row ≤ 19 ∧ 0 ≤ col ∧ col ≤ 9)) ∧
      (Grid.write b row col v = none ↔ ¬ (0 ≤ row ∧ row ≤ 19 ∧ 0 ≤ col ∧ col ≤ 9))) := by
  refine ⟨?_, fun b hb row col v =>
    ⟨Grid.read_eq_none_iff b hb row col, Grid.write_eq_none_iff b hb row col v⟩⟩
  have hcl0 := clearLines_eq_spec g hg
  have hcl := hcl0
  have her := scanRows_eq_erase_cursors GRID_HEIGHT g (GRID_HEIGHT - 1)
  unfold clearLines at hcl
  cases hsc : scanRowsCursors GRID_HEIGHT g (GRID_HEIGHT - 1) with
  | none =>
    rw [hsc] at her
    rw [her] at hcl
    exact Option.noConfusion hcl
  | some r =>
    obtain ⟨cursors, g1, w⟩ := r
    rw [hsc] at her
    obtain ⟨hlog, hw1, hw2⟩ := scanRowsCursors_bounds GRID_HEIGHT g (GRID_HEIGHT - 1)
      cursors g1 w hsc (by norm_num) (by norm_num)
    rw [her] at hcl
    exact ⟨cursors, g1, w, rfl, her, hlog, hw1, hw2, clearLinesSpec g, hcl, hcl0⟩

/-- Witness for C18: rows 17 and 19 are full, row 18 is not; the cursor pairs
recorded at the 18 non-full rows end with the write cursor at `1`. -/
theorem clearLines_cursors_and_indices_witness :
    ∃ cursors g1 w,
      scanRowsCursors GRID_HEIGHT
        (List.replicate 17 (List.replicate 10 0) ++
          [List.replicate 10 1, [1, 0, 2, 0, 3, 0, 4, 0, 5, 0], List.replicate 10 2])
        (GRID_HEIGHT - 1) = some (cursors, g1, w) ∧
      (∀ rw ∈ cursors, 0 ≤ rw.1 ∧ rw.1 ≤ rw.2 ∧ rw.2 ≤ 19) ∧ -1 ≤ w ∧ w ≤ 19 :=
  let ⟨cursors, g1, w, h1, _, h3, h4, h5, _⟩ :=
    (clearLines_cursors_and_indices
      (List.replicate 17 (List.replicate 10 0) ++
        [List.replicate 10 1, [1, 0, 2, 0, 3, 0, 4, 0, 5, 0], List.replicate 10 2])
      (by decide)).1
  ⟨cursors, g1, w, h1, h3, h4, h5⟩

/-! ## The current piece stays inside the grid -/

theorem isValidPosition_true_inside (g : Grid) (hg : Grid.WF g) (p : Tetromino)
    (hv : isValidPosition g p = some true) :
    ∀ b ∈ p.blocks, 0 ≤ b.x ∧ b.x < 10 ∧ b.y < 20 := by
  have h := isValidBlocks_eq g hg p.blocks
  unfold isValidPosition at hv
  rw [h, Option.some.injEq, decide_eq_true_eq] at hv
  intro b hb
  exact ⟨(hv b hb).1, (hv b hb).2.1, (hv b hb).2.2.1⟩

theorem commitIfValid_some_valid (st st1 : TetrisGame) (cand : Tetromino)
    (h : commitIfValid st cand = some st1) :
    st1 = st ∨
      (st1 = { st with currentPiece := cand } ∧ isValidPosition st.grid cand = some true) := by
  unfold commitIfValid at h
  cases hv : isValidPosition st.grid cand with
  | none => simp [hv] at h
  | some ok =>
    cases ok with
    | true => right; simp [hv] at h; exact ⟨h.symm, rfl⟩
    | false => left; simp [hv] at h; exact h.symm

theorem handleEvent_some_cases (st st1 : TetrisGame) (ev : Event)
    (h : handleEvent st ev = some st1) :
    st1 = st ∨ ∃ cand,
      (cand = st.currentPiece.rotate (PointRef.block 1) ∨
        cand = st.currentPiece.move (-1) 0 ∨ cand = st.currentPiece.move 1 0) ∧
      st1 = { st with currentPiece := cand } ∧ isValidPosition st.grid cand = some true := by
  cases ev with
  | Closed => left; simp [handleEvent] at h; exact h.symm
  | Other => left; simp [handleEvent] at h; exact h.symm
  | KeyPressed code =>
    cases code with
    | Up =>
      rcases commitIfValid_some_valid st st1 _ h with h1 | h1
      · exact Or.inl h1
      · exact Or.inr ⟨_, Or.inl rfl, h1⟩
    | Left =>
      rcases commitIfValid_some_valid st st1 _ h with h1 | h1
      · exact Or.inl h1
      · exact Or.inr ⟨_, Or.inr (Or.inl rfl), h1⟩
    | Right =>
      rcases commitIfValid_some_valid st st1 _ h with h1 | h1
      · exact Or.inl h1
      · exact Or.inr ⟨_, Or.inr (Or.inr rfl), h1⟩
    | Other => left; simp [handleEvent] at h; exact h.symm

theorem update_some_cases (st st1 : TetrisGame) (d : Draw) (h : update st d = some st1) :
    st1 = st ∨
      (st1 = { st with timer := 0, currentPiece := st.currentPiece.move 0 1 } ∧
        isValidPosition st.grid (st.currentPiece.move 0 1) = some true) ∨
      ∃ g1 g2 p, lockBlocks st.grid st.currentPiece.colorNum st.currentPiece.blocks = some g1 ∧
        clearLines g1 = some g2 ∧ Tetromino.new d.shape d.color = some p ∧
        st1 = { st with timer := 0, grid := g2, currentPiece := p } := by
  by_cases ht : st.timer > st.currentDelay
  · cases hv : isValidPosition st.grid (st.currentPiece.move 0 1) with
    | none => simp [update, ht, hv] at h
    | some ok =>
      cases ok with
      | true =>
        rw [update_descend st d ht hv, Option.some.injEq] at h
        exact Or.inr (Or.inl ⟨h.symm, rfl⟩)
      | false =>
        rw [update_lock st d ht hv] at h
        obtain ⟨g1, g2, p, hl, hcl, hnew, hst⟩ := lockClearSpawn_some _ st1 d h
        exact Or.inr (Or.inr ⟨g1, g2, p, hl, hcl, hnew, hst⟩)
  · left
    have : update st d = some st := by simp [update, ht]
    rw [this, Option.some.injEq] at h
    exact h.symm

theorem reachable_grid_WF (st : TetrisGame) (hr : Reachable st) : Grid.WF st.grid := by
  have key : Grid.WF st.grid ∧ Grid.CellsInRange st.grid ∧
      1 ≤ st.currentPiece.colorNum ∧ st.currentPiece.colorNum ≤ 7 := by
    induction hr with
    | init d hd st h =>
      obtain ⟨t, _, hnew, hcol, _⟩ := Tetromino_new_cells d.shape d.color hd.1 hd.2.1
      simp only [TetrisGame.init, hnew, Option.bind_eq_bind, Option.some_bind, Option.pure_def,
        Option.some.injEq] at h
      subst h
      refine ⟨(by decide : Grid.WF Grid.empty),
        (by decide : Grid.CellsInRange Grid.empty), ?_⟩
      show 1 ≤ t.colorNum ∧ t.colorNum ≤ 7
      rw [hcol]
      exact hd.2.2
    | step st st1 _ hs ih =>
      obtain ⟨hg, hc, hcol⟩ := ih
      cases hs with
      | elapse deltaTime h => exact ⟨hg, hc, hcol⟩
      | event _ ev h =>
        obtain ⟨h1, _, _, h4⟩ := handleEvent_frame st st1 ev h
        rw [h1, h4]
        exact ⟨hg, hc, hcol⟩
      | sample downPressed => exact ⟨hg, hc, hcol⟩
      | update _ d hd h => exact update_preserves st st1 d hd h hg hc hcol
  exact key.1

theorem reachable_piece_inside (st : TetrisGame) (hr : Reachable st) :
    ∀ b ∈ st.currentPiece.blocks, 0 ≤ b.x ∧ b.x < 10 ∧ b.y < 20 := by
  have hnew_inside : ∀ (d : Draw) (p : Tetromino), d.InRange →
      Tetromino.new d.shape d.color = some p →
      ∀ b ∈ p.blocks, 0 ≤ b.x ∧ b.x < 10 ∧ b.y < 20 := by
    intro d p hd hp b hb
    obtain ⟨t, _, hnew, _, _, _, _, hframe⟩ := Tetromino_new_cells d.shape d.color hd.1 hd.2.1
    rw [hnew, Option.some.injEq] at hp
    subst hp
    have := hframe b hb
    omega
  induction hr with
  | init d hd st h =>
    cases hnew : Tetromino.new d.shape d.color with
    | none => simp [TetrisGame.init, hnew] at h
    | some p =>
      simp only [TetrisGame.init, hnew, Option.bind_eq_bind, Option.some_bind, Option.pure_def,
        Option.some.injEq] at h
      subst h
      exact hnew_inside d p hd hnew
  | step st st1 hr0 hs ih =>
    have hg := reachable_grid_WF st hr0
    cases hs with
    | elapse deltaTime h => exact ih
    | event _ ev h =>
      rcases handleEvent_some_cases st st1 ev h with rfl | ⟨cand, _, rfl, hv⟩
      · exact ih
      · exact isValidPosition_true_inside st.grid hg cand hv
    | sample downPressed => exact ih
    | update _ d hd h =>
      rcases update_some_cases st st1 d h with rfl | ⟨rfl, hv⟩ | ⟨g1, g2, p, _, _, hnew, rfl⟩
      · exact ih
      · exact isValidPosition_true_inside st.grid hg _ hv
      · exact hnew_inside d p hd hnew

theorem handleEvent_total (st : TetrisGame) (hg : Grid.WF st.grid) (ev : Event) :
    ∃ st1, handleEvent st ev = some st1 := by
  cases ev with
  | Closed => exact ⟨st, rfl⟩
  | Other => exact ⟨st, rfl⟩
  | KeyPressed code =>
    cases code with
    | Up => obtain ⟨ok, _, h⟩ := commitIfValid_spec st hg _; exact ⟨_, h⟩
    | Left => obtain ⟨ok, _, h⟩ := commitIfValid_spec st hg _; exact ⟨_, h⟩
    | Right => obtain ⟨ok, _, h⟩ := commitIfValid_spec st hg _; exact ⟨_, h⟩
    | Other => exact ⟨st, rfl⟩

theorem update_total (st : TetrisGame) (d : Draw) (hg : Grid.WF st.grid) (hd : d.InRange)
    (hp : ∀ b ∈ st.currentPiece.blocks, 0 ≤ b.x ∧ b.x < 10 ∧ b.y < 20) :
    ∃ st1, update st d = some st1 := by
  by_cases ht : st.timer > st.currentDelay
  · obtain ⟨ok, hv⟩ := isValidPosition_valid_total st.grid hg (st.currentPiece.move 0 1)
    cases ok with
    | true => exact ⟨_, update_descend st d ht hv⟩
    | false =>
      obtain ⟨g1, t, _, _, _, _, _, hlcs⟩ :=
        lockClearSpawn_defined { st with timer := 0 } d hg hd hp
      exact ⟨_, (update_lock st d ht hv).trans hlcs⟩
  · exact ⟨st, by simp [update, ht]⟩

theorem reachable_handleEvents (events : List Event) :
    ∀ st : TetrisGame, Reachable st → ∃ st1, handleEvents st events = some st1 ∧ Reachable st1 := by
  induction events with
  | nil => intro st hr; exact ⟨st, rfl, hr⟩
  | cons ev rest ih =>
    intro st hr
    obtain ⟨st1, h1⟩ := handleEvent_total st (reachable_grid_WF st hr) ev
    obtain ⟨st2, h2, hr2⟩ := ih st1 (Reachable.step st st1 hr (Step.event st st1 ev h1))
    exact ⟨st2, by simp [handleEvents, h1, h2], hr2⟩

theorem reachable_runIter (st : TetrisGame) (hr : Reachable st) (deltaTime : ℚ)
    (hdt : 0 ≤ deltaTime) (events : List Event) (downPressed : Bool) (d : Draw)
    (hd : d.InRange) :
    ∃ st1, runIter st deltaTime events downPressed d = some st1 ∧ Reachable st1 := by
  have hr1 : Reachable { st with timer := st.timer + deltaTime } :=
    Reachable.step _ _ hr (Step.elapse st deltaTime hdt)
  obtain ⟨st2, h2, hr2⟩ := reachable_handleEvents events _ hr1
  have hr3 : Reachable
      { st2 with currentDelay := if downPressed then FAST_DELAY else INITIAL_DELAY } :=
    Reachable.step _ _ hr2 (Step.sample st2 downPressed)
  obtain ⟨st4, h4⟩ := update_total _ d (reachable_grid_WF _ hr3) hd
    (reachable_piece_inside _ hr3)
  refine ⟨st4, ?_, Reachable.step _ _ hr3 (Step.update _ st4 d hd h4)⟩
  simp [runIter, handleInput, h2, h4]

/-- C15: in every reachable state every cell `(x, y)` of the current piece
has `0 ≤ x ≤ 9` and `y ≤ 19`; hence the write loop of `lockPiece`, guarded
only by `y ≥ 0`, stays inside the 20x10 grid, and no core operation fails:
`handleEvent`, `handleInput`, `update` and a whole iteration of the run loop
each produce a state (spawn draws in range, elapsed time non-negative). -/
theorem reachable_piece_inside_no_fault (st : TetrisGame) (hr : Reachable st) :
    (∀ b ∈ st.currentPiece.blocks, 0 ≤ b.x ∧ b.x ≤ 9 ∧ b.y ≤ 19) ∧
    (∃ g1, lockBlocks st.grid st.currentPiece.colorNum st.currentPiece.blocks = some g1 ∧
      Grid.WF g1) ∧
    (∃ r, isValidPosition st.grid st.currentPiece = some r) ∧
    (∃ g2, clearLines st.grid = some g2) ∧
    (∀ ev, ∃ st1, handleEvent st ev = some st1) ∧
    (∀ events downPressed, ∃ st1, handleInput st events downPressed = some st1) ∧
    (∀ d : Draw, d.InRange → ∃ st1, update st d = some st1) ∧
    (∀ (deltaTime : ℚ) events downPressed (d : Draw), 0 ≤ deltaTime → d.InRange →
      ∃ st1, runIter st deltaTime events downPressed d = some st1 ∧ Reachable st1) := by
  have hg := reachable_grid_WF st hr
  have hp := reachable_piece_inside st hr
  refine ⟨?_, ?_, isValidPosition_valid_total st.grid hg _, ⟨_, clearLines_eq_spec st.grid hg⟩,
    handleEvent_total st hg, ?_, ?_, ?_⟩
  · intro b hb
    have := hp b hb
    omega
  · obtain ⟨g1, hl, hwf, _⟩ :=
      lockBlocks_spec_aux st.currentPiece.colorNum st.currentPiece.blocks st.grid hg hp
    exact ⟨g1, hl, hwf⟩
  · intro events downPressed
    obtain ⟨st1, h1, _⟩ := reachable_handleEvents events st hr
    exact ⟨{ st1 with currentDelay := if downPressed then FAST_DELAY else INITIAL_DELAY },
      by simp [handleInput, h1]⟩
  · intro d hd
    exact update_total st d hg hd hp
  · intro deltaTime events downPressed d hdt hd
    exact reachable_runIter st hr deltaTime hdt events downPressed d hd

/-- Witness for C15: the constructed state with the draw (I, colour 1); an
iteration of the run loop with a rotate key press, the Down key held and one
second elapsed produces a state. -/
theorem reachable_piece_inside_no_fault_witness :
    Reachable ⟨Grid.empty, ⟨⟨1, 0⟩, ⟨1, 1⟩, ⟨1, 2⟩, ⟨1, 3⟩, 1⟩, 0, INITIAL_DELAY⟩ ∧
    ∃ st1, runIter ⟨Grid.empty, ⟨⟨1, 0⟩, ⟨1, 1⟩, ⟨1, 2⟩, ⟨1, 3⟩, 1⟩, 0, INITIAL_DELAY⟩ 1
      [Event.KeyPressed Key.Up] true ⟨2, 3⟩ = some st1 ∧ Reachable st1 :=
  have h : Reachable ⟨Grid.empty, ⟨⟨1, 0⟩, ⟨1, 1⟩, ⟨1, 2⟩, ⟨1, 3⟩, 1⟩, 0, INITIAL_DELAY⟩ :=
    Reachable.init ⟨0, 1⟩ (by decide) _ rfl
  ⟨h, (reachable_piece_inside_no_fault _ h).2.2.2.2.2.2.2 1 [Event.KeyPressed Key.Up] true
    ⟨2, 3⟩ (by norm_num) (by decide)⟩

/-! ## The current piece is a catalog shape -/

theorem Tetromino.rotate_block1_eq_val (t : Tetromino) :
    t.rotate (PointRef.block 1) = t.rotate (PointRef.val t.b1) := by
  rw [Tetromino.rotate_block1, Tetromino.rotate_val]
  obtain ⟨b0, ⟨x1, y1⟩, b2, b3, c⟩ := t
  simp

theorem Tetromino.rotate_move_comm (t : Tetromino) (dx dy : Int) :
    (t.move dx dy).rotate (PointRef.block 1) = (t.rotate (PointRef.block 1)).move dx dy := by
  rw [Tetromino.rotate_block1, Tetromino.move_eq, Tetromino.move_eq, Tetromino.rotate_block1]
  simp only [Tetromino.mk.injEq, Point.mk.injEq, and_self, and_true, true_and]
  refine ⟨⟨?_, ?_⟩, ⟨?_, ?_⟩, ⟨?_, ?_⟩⟩ <;> omega

theorem Tetromino.move_move (t : Tetromino) (a b c d : Int) :
    (t.move a b).move c d = t.move (a + c) (b + d) := by
  rw [Tetromino.move_eq, Tetromino.move_eq, Tetromino.move_eq]
  simp only [Tetromino.mk.injEq, Point.mk.injEq]
  refine ⟨⟨?_, ?_⟩, ⟨?_, ?_⟩, ⟨?_, ?_⟩, ⟨?_, ?_⟩, trivial⟩ <;> omega

theorem Tetromino.move_zero (t : Tetromino) : t.move 0 0 = t := by
  rw [Tetromino.move_eq]
  simp

theorem Tetromino.rotate_val_b1 (t : Tetromino) :
    (t.rotate (PointRef.val t.b1)).b1 = t.b1 := by
  rw [Tetromino.rotate_val]
  obtain ⟨b0, ⟨x1, y1⟩, b2, b3, c⟩ := t
  simp

theorem Tetromino.iterate_rotate_b1 (p : Point) (k : Nat) :
    ∀ t : Tetromino, t.b1 = p →
      ((fun u : Tetromino => u.rotate (PointRef.val p))^[k] t).b1 = p := by
  induction k with
  | zero => intro t ht; exact ht
  | succ k ih =>
    intro t ht
    rw [Function.iterate_succ_apply]
    apply ih
    rw [← ht]
    exact Tetromino.rotate_val_b1 t

theorem Tetromino.iterate_rotate_four (p : Point) (t : Tetromino) :
    (fun u : Tetromino => u.rotate (PointRef.val p))^[4] t = t := by
  simp only [Function.iterate_succ, Function.iterate_zero, Function.comp_apply, id_eq]
  obtain ⟨⟨x0, y0⟩, ⟨x1, y1⟩, ⟨x2, y2⟩, ⟨x3, y3⟩, c⟩ := t
  simp only [Tetromino.rotate_val]
  simp only [Tetromino.mk.injEq, Point.mk.injEq]
  refine ⟨⟨?_, ?_⟩, ⟨?_, ?_⟩, ⟨?_, ?_⟩, ⟨?_, ?_⟩, trivial⟩ <;> omega

theorem IsCatalogPiece.of_new (s c : Int) (hs0 : 0 ≤ s) (hs6 : s ≤ 6) (t : Tetromino)
    (h : Tetromino.new s c = some t) : IsCatalogPiece t := by
  have hc : t.colorNum = c := by
    obtain ⟨t1, _, hnew, hcol, _⟩ := Tetromino_new_cells s c hs0 hs6
    rw [hnew, Option.some.injEq] at h
    rw [← h]; exact hcol
  refine ⟨s, 0, 0, 0, t, hs0, hs6, by omega, ?_, ?_⟩
  · rw [hc]; exact h
  · rw [Function.iterate_zero, id_eq, Tetromino.move_zero]

theorem IsCatalogPiece.move (p : Tetromino) (h : IsCatalogPiece p) (a b : Int) :
    IsCatalogPiece (p.move a b) := by
  obtain ⟨s, k, dx, dy, t0, hs0, hs6, hk, hnew, hp⟩ := h
  refine ⟨s, k, dx + a, dy + b, t0, hs0, hs6, hk, ?_, ?_⟩
  · rw [Tetromino.move_eq]; exact hnew
  · rw [hp, Tetromino.move_move]

theorem IsCatalogPiece.rotate (p : Tetromino) (h : IsCatalogPiece p) :
    IsCatalogPiece (p.rotate (PointRef.block 1)) := by
  obtain ⟨s, k, dx, dy, t0, hs0, hs6, hk, hnew, hp⟩ := h
  have hstep : p.rotate (PointRef.block 1) =
      ((fun u : Tetromino => u.rotate (PointRef.val t0.b1))^[k + 1] t0).move dx dy := by
    rw [hp, Tetromino.rotate_move_comm, Tetromino.rotate_block1_eq_val,
      Tetromino.iterate_rotate_b1 t0.b1 k t0 rfl, Function.iterate_succ_apply']
  have hcol : (p.rotate (PointRef.block 1)).colorNum = p.colorNum := by
    rw [Tetromino.rotate_block1]
  by_cases hk3 : k = 3
  · subst hk3
    refine ⟨s, 0, dx, dy, t0, hs0, hs6, by omega, by rw [hcol]; exact hnew, ?_⟩
    rw [hstep, Tetromino.iterate_rotate_four, Function.iterate_zero, id_eq]
  · exact ⟨s, k + 1, dx, dy, t0, hs0, hs6, by omega, by rw [hcol]; exact hnew, hstep⟩

theorem Tetromino.rotate_val_blocks (t : Tetromino) (p : Point) :
    (t.rotate (PointRef.val p)).blocks =
      t.blocks.map (fun b => (⟨p.x - (b.y - p.y), p.y + (b.x - p.x)⟩ : Point)) := by
  rw [Tetromino.rotate_val]
  simp [Tetromino.blocks]

theorem Tetromino.move_blocks (t : Tetromino) (dx dy : Int) :
    (t.move dx dy).blocks = t.blocks.map (fun b => (⟨b.x + dx, b.y + dy⟩ : Point)) := by
  rw [Tetromino.move_eq]
  simp [Tetromino.blocks]

theorem Tetromino.rotate_val_nodup (t : Tetromino) (p : Point) (h : t.blocks.Nodup) :
    (t.rotate (PointRef.val p)).blocks.Nodup := by
  rw [Tetromino.rotate_val_blocks]
  apply List.Nodup.map _ h
  intro a b hab
  obtain ⟨ax, ay⟩ := a
  obtain ⟨bx, b_y⟩ := b
  simp only [Point.mk.injEq] at hab ⊢
  omega

theorem Tetromino.move_nodup (t : Tetromino) (dx dy : Int) (h : t.blocks.Nodup) :
    (t.move dx dy).blocks.Nodup := by
  rw [Tetromino.move_blocks]
  apply List.Nodup.map _ h
  intro a b hab
  obtain ⟨ax, ay⟩ := a
  obtain ⟨bx, b_y⟩ := b
  simp only [Point.mk.injEq] at hab ⊢
  omega

theorem IsCatalogPiece.nodup (p : Tetromino) (h : IsCatalogPiece p) : p.blocks.Nodup := by
  obtain ⟨s, k, dx, dy, t0, hs0, hs6, hk, hnew, hp⟩ := h
  have h0 : t0.blocks.Nodup := by
    obtain ⟨t1, _, hnew1, _, _, _, hcat, _⟩ := Tetromino_new_cells s p.colorNum hs0 hs6
    rw [hnew1, Option.some.injEq] at hnew
    subst hnew
    have hall : ∀ l ∈ catalogCells, l.Nodup := by decide
    apply hall
    unfold idx? at hcat
    rw [if_pos hs0] at hcat
    exact List.get?_mem hcat
  have hiter : ∀ n : Nat,
      ((fun u : Tetromino => u.rotate (PointRef.val t0.b1))^[n] t0).blocks.Nodup := by
    intro n
    induction n with
    | zero => exact h0
    | succ n ih =>
      rw [Function.iterate_succ_apply']
      exact Tetromino.rotate_val_nodup _ _ ih
  rw [hp]
  exact Tetromino.move_nodup _ dx dy (hiter k)

theorem reachable_IsCatalogPiece (st : TetrisGame) (hr : Reachable st) :
    IsCatalogPiece st.currentPiece := by
  induction hr with
  | init d hd st h =>
    cases hnew : Tetromino.new d.shape d.color with
    | none => simp [TetrisGame.init, hnew] at h
    | some p =>
      simp only [TetrisGame.init, hnew, Option.bind_eq_bind, Option.some_bind, Option.pure_def,
        Option.some.injEq] at h
      subst h
      exact IsCatalogPiece.of_new d.shape d.color hd.1 hd.2.1 p hnew
  | step st st1 _ hs ih =>
    cases hs with
    | elapse deltaTime h => exact ih
    | event _ ev h =>
      rcases handleEvent_some_cases st st1 ev h with rfl | ⟨cand, hc, rfl, _⟩
      · exact ih
      · rcases hc with rfl | rfl | rfl
        · exact IsCatalogPiece.rotate _ ih
        · exact IsCatalogPiece.move _ ih _ _
        · exact IsCatalogPiece.move _ ih _ _
    | sample downPressed => exact ih
    | update _ d hd h =>
      rcases update_some_cases st st1 d h with rfl | ⟨rfl, _⟩ | ⟨g1, g2, p, _, _, hnew, rfl⟩
      · exact ih
      · exact IsCatalogPiece.move _ ih _ _
      · exact IsCatalogPiece.of_new d.shape d.color hd.1 hd.2.1 p hnew

/-- C11: in every reachable state the 4 cells of the current piece are, cell
by cell in order, the decoded cells of a catalog shape `s` in `0..6`, rotated
`k` times (`k` in `0..3`) about that shape's `blocks[1]` and then translated
by an integer vector `(dx, dy)`; consequently the 4 cells are pairwise
distinct. -/
theorem reachable_piece_is_catalog_shape (st : TetrisGame) (hr : Reachable st) :
    (∃ (s : Int) (k : Nat) (dx dy : Int) (t0 : Tetromino),
      0 ≤ s ∧ s ≤ 6 ∧ k ≤ 3 ∧ Tetromino.new s st.currentPiece.colorNum = some t0 ∧
      idx? catalogCells s = some t0.blocks ∧
      st.currentPiece =
        ((fun u : Tetromino => u.rotate (PointRef.val t0.b1))^[k] t0).move dx dy) ∧
    st.currentPiece.blocks.Nodup := by
  have h := reachable_IsCatalogPiece st hr
  refine ⟨?_, IsCatalogPiece.nodup _ h⟩
  obtain ⟨s, k, dx, dy, t0, hs0, hs6, hk, hnew, hp⟩ := h
  obtain ⟨t1, _, hnew1, _, _, _, hcat, _⟩ :=
    Tetromino_new_cells s st.currentPiece.colorNum hs0 hs6
  rw [hnew1, Option.some.injEq] at hnew
  subst hnew
  exact ⟨s, k, dx, dy, t1, hs0, hs6, hk, hnew1, hcat, hp⟩

/-- Witness for C11: the T piece after construction, a rotate key press and
a move to the right; it is the T shape rotated once and moved by `(1, 0)`. -/
theorem reachable_piece_is_catalog_shape_witness :
    Reachable ⟨Grid.empty, ⟨⟨3, 2⟩, ⟨2, 2⟩, ⟨2, 1⟩, ⟨1, 2⟩, 5⟩, 0, INITIAL_DELAY⟩ ∧
    (⟨⟨3, 2⟩, ⟨2, 2⟩, ⟨2, 1⟩, ⟨1, 2⟩, 5⟩ : Tetromino).blocks.Nodup :=
  have h : Reachable ⟨Grid.empty, ⟨⟨3, 2⟩, ⟨2, 2⟩, ⟨2, 1⟩, ⟨1, 2⟩, 5⟩, 0, INITIAL_DELAY⟩ :=
    Reachable.step _ _
      (Reachable.step _ ⟨Grid.empty, ⟨⟨2, 2⟩, ⟨1, 2⟩, ⟨1, 1⟩, ⟨0, 2⟩, 5⟩, 0, INITIAL_DELAY⟩
        (Reachable.init ⟨3, 5⟩ (by decide)
          ⟨Grid.empty, ⟨⟨1, 1⟩, ⟨1, 2⟩, ⟨0, 2⟩, ⟨1, 3⟩, 5⟩, 0, INITIAL_DELAY⟩ rfl)
        (Step.event _ _ (Event.KeyPressed Key.Up) rfl))
      (Step.event _ _ (Event.KeyPressed Key.Right) rfl)
  ⟨h, (reachable_piece_is_catalog_shape _ h).2⟩

/-! ## Unchecked spawn -/

theorem reachable_gravityRun (ds : List Draw) :
    ∀ st : TetrisGame, Reachable st → (∀ d ∈ ds, d.InRange) →
      ∀ st1, gravityRun ds st = some st1 → Reachable st1 := by
  induction ds with
  | nil =>
    intro st hr _ st1 h
    simp only [gravityRun, Option.some.injEq] at h
    rw [← h]; exact hr
  | cons d rest ih =>
    intro st hr hds st1 h
    obtain ⟨st2, h2, hr2⟩ := reachable_runIter st hr 1 (by norm_num) [] false d
      (hds d (List.mem_cons_self _ _))
    simp only [gravityRun, h2, Option.some_bind] at h
    exact ih st2 hr2 (fun d1 h1 => hds d1 (List.mem_cons_of_mem _ h1)) st1 h

set_option maxRecDepth 100000 in
theorem gravityRun_O_pieces :
    gravityRun (List.replicate 90 ⟨6, 2⟩)
        ⟨Grid.empty, ⟨⟨0, 1⟩, ⟨1, 1⟩, ⟨0, 2⟩, ⟨1, 2⟩, 2⟩, 0, INITIAL_DELAY⟩ =
      some ⟨List.replicate 2 (List.replicate 10 0) ++
              List.replicate 18 [2, 2, 0, 0, 0, 0, 0, 0, 0, 0],
            ⟨⟨0, 1⟩, ⟨1, 1⟩, ⟨0, 2⟩, ⟨1, 2⟩, 2⟩, 0, INITIAL_DELAY⟩ := by
  with_unfolding_all rfl

/-- C12: a locking gravity tick installs the freshly drawn piece whatever its
validity.  Starting from the empty board with the O shape (index 6) drawn
every time and never moved, 90 iterations of the run loop reach a state whose
current piece lies inside the grid but fails `isValidPosition` because it
overlaps occupied cells; from that state, as from every reachable state, a
further iteration still produces a state: there is no terminal state. -/
theorem unchecked_spawn_reaches_overlap :
    (∀ (s s1 : TetrisGame) (d : Draw), s.timer > s.currentDelay →
      isValidPosition s.grid (s.currentPiece.move 0 1) = some false →
      update s d = some s1 → Tetromino.new d.shape d.color = some s1.currentPiece) ∧
    (∃ st0 st : TetrisGame, TetrisGame.init ⟨6, 2⟩ = some st0 ∧
      gravityRun (List.replicate 90 ⟨6, 2⟩) st0 = some st ∧ Reachable st ∧
      isValidPosition st.grid st.currentPiece = some false ∧
      (∀ b ∈ st.currentPiece.blocks, 0 ≤ b.x ∧ b.x < 10 ∧ 0 ≤ b.y ∧ b.y < 20) ∧
      (∃ b ∈ st.currentPiece.blocks, ∃ v, Grid.read st.grid b.y b.x = some v ∧ v ≠ 0) ∧
      (∀ d : Draw, d.InRange →
        ∃ st1, runIter st 1 [] false d = some st1 ∧ Reachable st1)) ∧
    (∀ st : TetrisGame, Reachable st → ∀ d : Draw, d.InRange →
      ∃ st1, runIter st 1 [] false d = some st1 ∧ Reachable st1) := by
  refine ⟨?_, ?_, ?_⟩
  · intro s s1 d ht hv hu
    rw [update_lock s d ht hv] at hu
    obtain ⟨g1, g2, p, _, _, hnew, rfl⟩ := lockClearSpawn_some _ s1 d hu
    exact hnew
  · have hr0 : Reachable
        ⟨Grid.empty, ⟨⟨0, 1⟩, ⟨1, 1⟩, ⟨0, 2⟩, ⟨1, 2⟩, 2⟩, 0, INITIAL_DELAY⟩ :=
      Reachable.init ⟨6, 2⟩ (by decide) _ rfl
    have hrF := reachable_gravityRun (List.replicate 90 ⟨6, 2⟩) _ hr0
      (by intro d hd; rw [(List.mem_replicate.mp hd).2]; decide) _ gravityRun_O_pieces
    refine ⟨_, _, rfl, gravityRun_O_pieces, hrF, by decide, by decide, ?_, ?_⟩
    · exact ⟨⟨0, 2⟩, by decide, 2, by decide, by decide⟩
    · intro d hd
      exact reachable_runIter _ hrF 1 (by norm_num) [] false d hd
  · intro st hr d hd
    exact reachable_runIter st hr 1 (by norm_num) [] false d hd

end Tetris
